import Mathlib

/-!
Shallow embedding of `gp_sort_sequences.py`: a GoPro image-sequence sorter.
Strings are modelled as lists of characters; the filesystem walk is an
explicit parameter; side effects (directory creation, file moves, encoder
subprocess) are recorded in an explicit effect trace.
-/

namespace GpSort

/-- Python strings are modelled as lists of characters. -/
abbrev Str := List Char

/-- Digit test for the characters handled by `int()`. -/
def isDigitCh (c : Char) : Bool := 48 ≤ c.toNat && c.toNat ≤ 57

/-- Decimal value of a digit string, most significant digit first. -/
def decVal (s : Str) : Nat := s.foldl (fun a c => a * 10 + (c.toNat - 48)) 0

/-- Decimal parse of a bare (unsigned) digit string, `none` when it is empty
or contains a non-digit. -/
def digitStr? (s : Str) : Option Nat :=
  match s with
  | [] => none
  | _ => if s.all isDigitCh then some (decVal s) else none

/-- Core grammar of Python `int(str)`: an optional sign followed by a
non-empty digit run.  (Surrounding whitespace and underscore separators
accepted by CPython are not modelled; no input in this development uses
them.)  `none` models a raised `ValueError`. -/
def pyInt : Str → Option Int
  | '-' :: rest => (digitStr? rest).map (fun n => -(n : Int))
  | '+' :: rest => (digitStr? rest).map (fun n => (n : Int))
  | s => (digitStr? s).map (fun n => (n : Int))

/-- `os.path.basename`: everything after the last path separator. -/
def pyBasename (p : Str) : Str := (p.reverse.takeWhile (fun c => c ≠ '/')).reverse

/-- The complementary directory part, up to and including the last separator. -/
def dirPart (p : Str) : Str := (p.reverse.dropWhile (fun c => c ≠ '/')).reverse

/-- `os.path.splitext` (posix): split at the last dot of the basename
provided some non-dot character precedes it within the basename. -/
def pySplitext (p : Str) : Str × Str :=
  match (p.reverse.takeWhile (fun c => c ≠ '/')).span (fun c => c ≠ '.') with
  | (_, []) => (p, [])
  | (rext, _ :: rname) =>
    if rname.any (fun c => c ≠ '.') then (dirPart p ++ rname.reverse, '.' :: rext.reverse)
    else (p, [])

/-- Two-argument `os.path.join` (posix). -/
def pathJoin (a b : Str) : Str :=
  if b.head? = some '/' then b
  else if a = [] ∨ a.getLast? = some '/' then a ++ b
  else a ++ '/' :: b

/-- `str.upper()` (ASCII uses only in this program). -/
def pyUpper (s : Str) : Str := s.map Char.toUpper

/-- Fueled digit expansion of a natural number, most significant first;
`fuel ≥ n` suffices. -/
def natDigitsGo : Nat → Nat → Str
  | 0, _ => []
  | fuel + 1, n =>
    if n = 0 then [] else natDigitsGo fuel (n / 10) ++ [Char.ofNat (48 + n % 10)]

/-- Decimal rendering of a natural number, as produced by `format(n, 'd')`. -/
def natDecimal (n : Nat) : Str := if n = 0 then ['0'] else natDigitsGo (n + 1) n

/-- Zero padding to a minimum width of three characters: the behaviour of
both `'{:>03d}'` and `'{:03d}'` on non-negative operands. -/
def fmt03 (n : Nat) : Str :=
  List.replicate (3 - (natDecimal n).length) '0' ++ natDecimal n

/-! ## Insertion-ordered dictionaries

Python `dict`s are modelled as association lists in insertion order:
assignment to an existing key replaces the value in place, assignment to a
fresh key appends. -/

/-- Dictionary lookup, `d.get(x)`. -/
def dictGet? [DecidableEq α] : List (α × β) → α → Option β
  | [], _ => none
  | (k, v) :: rest, x => if k = x then some v else dictGet? rest x

/-- Dictionary assignment `d[x] = w`. -/
def dictSet [DecidableEq α] : List (α × β) → α → β → List (α × β)
  | [], x, w => [(x, w)]
  | (k, v) :: rest, x, w => if k = x then (k, w) :: rest else (k, v) :: dictSet rest x w

/-- The key list of a dictionary, in insertion order. -/
def dictKeys (d : List (α × β)) : List α := d.map Prod.fst

/-- Inner dictionaries of the index: extension ↦ absolute source path. -/
abbrev FileDict := List (Str × Str)

/-- The FileIndex: media key ↦ (extension ↦ absolute source path). -/
abbrev FileIndex := List (Int × FileDict)

/-- Per-extension destination lists of one sequence folder. -/
abbrev ExtLists := List (Str × List Str)

/-- The returned manifest: sequence folder path ↦ per-extension lists. -/
abbrev Manifest := List (Str × ExtLists)

/-- `d.setdefault(k, []).append(b)` on a per-extension list dictionary. -/
def dictAppend : ExtLists → Str → Str → ExtLists
  | [], k, b => [(k, [b])]
  | (k', l) :: rest, k, b =>
    if k' = k then (k', l ++ [b]) :: rest else (k', l) :: dictAppend rest k b

/-- `file_mapping.setdefault(key, {}).update({ext: path})`. -/
def indexInsert : FileIndex → Int → Str → Str → FileIndex
  | [], k, e, p => [(k, [(e, p)])]
  | (k', d) :: rest, k, e, p =>
    if k' = k then (k', dictSet d e p) :: rest else (k', d) :: indexInsert rest k e p

/-- Lookup of one `(key, extension)` slot of the index. -/
def indexLookup (m : FileIndex) (k : Int) (e : Str) : Option Str :=
  (dictGet? m k).bind (fun d => dictGet? d e)

/-- The key list of the index, in insertion order. -/
def indexKeys (m : FileIndex) : List Int := m.map Prod.fst

/-! ## File Index Builder (`_map_sequence_files`)

The `os.walk` traversal is a parameter `walk : Str → List (Str × List Str)`
giving, for each requested root, the visited `(dirpath, filenames)` pairs in
order.  `int(name[1:])` raises `ValueError` on unparseable digit portions;
this is modelled by `Except.error ()`. -/

/-- Indexing of a single visited file: split the basename, parse the digits
after the first character, store under the extension without its dot. -/
def mapFile (m : FileIndex) (dir fi : Str) : Except Unit FileIndex :=
  match pyInt ((pySplitext fi).1.drop 1) with
  | none => Except.error ()
  | some k => Except.ok (indexInsert m k ((pySplitext fi).2.drop 1) (pathJoin dir fi))

/-- `for fi in files` of one walk entry. -/
def filesLoop (dir : Str) : FileIndex → List Str → Except Unit FileIndex
  | m, [] => Except.ok m
  | m, fi :: rest =>
    match mapFile m dir fi with
    | Except.error e => Except.error e
    | Except.ok m1 => filesLoop dir m1 rest

/-- `for root, dirs, files in os.walk(folder)`. -/
def walkLoop : FileIndex → List (Str × List Str) → Except Unit FileIndex
  | m, [] => Except.ok m
  | m, (dir, files) :: rest =>
    match filesLoop dir m files with
    | Except.error e => Except.error e
    | Except.ok m1 => walkLoop m1 rest

/-- `for each_folder in root_directory`. -/
def rootsLoop (walk : Str → List (Str × List Str)) : FileIndex → List Str → Except Unit FileIndex
  | m, [] => Except.ok m
  | m, root :: rest =>
    match walkLoop m (walk root) with
    | Except.error e => Except.error e
    | Except.ok m1 => rootsLoop walk m1 rest

/-- `_map_sequence_files`. -/
def mapSequenceFiles (walk : Str → List (Str × List Str)) (roots : List Str) :
    Except Unit FileIndex :=
  rootsLoop walk [] roots

/-! ## Run Partitioner (`_sort_sequence_files`, grouping part)

`groupby(enumerate(keys), lambda ix: ix[0] - ix[1])` groups a maximal prefix
sharing the key of the group's first element, which on the enumerated sorted
key list is exactly the contiguous-run grouping. -/

/-- The grouping key `ix[0] - ix[1]` of the enumerated key list. -/
def enumDiff (p : Nat × Int) : Int := (p.1 : Int) - p.2

/-- Maximal prefix whose `itertools.groupby` key equals `k`, plus the rest. -/
def spanKey (f : α → Int) (k : Int) : List α → List α × List α
  | [] => ([], [])
  | x :: xs =>
    if f x = k then ((spanKey f k xs).1.cons x, (spanKey f k xs).2) else ([], x :: xs)

/-- Fueled `itertools.groupby` with each group fully listed; `fuel ≥ length`
suffices because every group consumes at least one element. -/
def pyGroupByGo (f : α → Int) : Nat → List α → List (List α)
  | 0, _ => []
  | _, [] => []
  | fuel + 1, x :: xs =>
    (x :: (spanKey f (f x) xs).1) :: pyGroupByGo f fuel (spanKey f (f x) xs).2

/-- `itertools.groupby` keyed by `f`, groups as lists. -/
def pyGroupBy (f : α → Int) (l : List α) : List (List α) := pyGroupByGo f l.length l

/-- The Runs of a key list: group the enumerated list by `index - key` and
keep the keys (`map(itemgetter(1), g)`). -/
def runsOfKeys (keys : List Int) : List (List Int) :=
  (pyGroupBy enumDiff keys.enum).map (fun g => g.map Prod.snd)

/-- `keys = [*file_mapping]; keys.sort()`. -/
def sortedKeys (m : FileIndex) : List Int := (indexKeys m).insertionSort (· ≤ ·)

/-- The Runs produced by the partitioner for a FileIndex. -/
def runsOf (m : FileIndex) : List (List Int) := runsOfKeys (sortedKeys m)

/-! ## Side effects

Directory creation, file moves and encoder subprocess launches are recorded
in an explicit trace; the set of existing paths is threaded so that the
`os.path.exists` guard of `_mkdir` is honoured. -/

/-- One observable side effect of a batch. -/
inductive FsEffect
  | mkdir (p : Str)
  | move (src dstdir : Str)
  | exec (cmd : Str)
deriving DecidableEq

/-- Existing paths plus the effect trace so far. -/
structure SideState where
  fs : List Str
  effects : List FsEffect
deriving DecidableEq

/-- `_mkdir`: create only when the path does not exist and not in dry-run. -/
def osMkdir (dry : Bool) (st : SideState) (p : Str) : SideState :=
  if p ∉ st.fs ∧ dry = false then
    { fs := st.fs ++ [p], effects := st.effects ++ [FsEffect.mkdir p] }
  else st

/-- `shutil.move(src, dstdir)` with a directory destination. -/
def shutilMove (st : SideState) (src dstdir : Str) : SideState :=
  { fs := (st.fs.erase src) ++ [pathJoin dstdir (pyBasename src)],
    effects := st.effects ++ [FsEffect.move src dstdir] }

/-- `_move`: a real move unless in dry-run. -/
def moveFile (dry : Bool) (st : SideState) (src dstdir : Str) : SideState :=
  if dry = false then shutilMove st src dstdir else st

/-! ## Sequence Materializer (`_sort_sequence_files`, layout part) -/

/-- `SEQUENCE_FOLDER.format(n)`, i.e. `'SEQ{:>03d}'.format(n)`. -/
def seqFolderName (n : Nat) : Str := ['S', 'E', 'Q'] ++ fmt03 n

/-- `for ext, path in file_mapping[key].items()`: create the extension
folder, move the file there, append its basename to the manifest list. -/
def extsLoop (dry : Bool) (folder : Str) :
    List (Str × Str) → ExtLists × SideState → ExtLists × SideState
  | [], acc => acc
  | (e, p) :: rest, (el, st) =>
    extsLoop dry folder rest
      (dictAppend el e (pyBasename p),
        moveFile dry (osMkdir dry st (pathJoin folder e)) p (pathJoin folder e))

/-- `for key in manifest`. -/
def keysLoop (dry : Bool) (m : FileIndex) (folder : Str) :
    List Int → ExtLists × SideState → ExtLists × SideState
  | [], acc => acc
  | k :: rest, acc => keysLoop dry m folder rest (extsLoop dry folder ((dictGet? m k).getD []) acc)

/-- The loop over Runs with the 1-based `seq_counter`. -/
def runsLoop (dry : Bool) (m : FileIndex) (dest : Str) :
    List (List Int) → Nat → Manifest → SideState → Manifest × SideState
  | [], _, man, st => (man, st)
  | r :: rest, c, man, st =>
    runsLoop dry m dest rest (c + 1)
      (dictSet (dictSet man (pathJoin dest (seqFolderName c)) []) (pathJoin dest (seqFolderName c))
        (keysLoop dry m (pathJoin dest (seqFolderName c)) r
          ([], osMkdir dry st (pathJoin dest (seqFolderName c)))).1)
      (keysLoop dry m (pathJoin dest (seqFolderName c)) r
        ([], osMkdir dry st (pathJoin dest (seqFolderName c)))).2

/-- `_sort_sequence_files`. -/
def sortSequenceFiles (dry : Bool) (m : FileIndex) (dest : Str) (st : SideState) :
    Manifest × SideState :=
  runsLoop dry m dest (runsOf m) 1 [] st

/-! ## Encoder Command Builder (`_build_command`, `_generate_movie`) -/

/-- `FPS`. -/
def FPS : Nat := 30

/-- `MOVIE_WIDTH`. -/
def MOVIE_WIDTH : Nat := 1920

/-- `MOVIE_EXTENSION`. -/
def MOVIE_EXTENSION : Str := ['M', 'P', '4']

/-- `IMG_SEQUENCE_EXTENSIONS`, the non-raw (JPG) format first. -/
def IMG_SEQUENCE_EXTENSIONS : List Str := [['J', 'P', 'G'], ['G', 'P', 'R']]

/-- The fully substituted `FFMPEG` command template. -/
def ffmpegFormat (fps : Nat) (startNumber inputFile : Str) (width : Nat) (outputFile : Str) :
    Str :=
  ("ffmpeg -r ").data ++ natDecimal fps ++ (" -f image2 -start_number ").data ++ startNumber
    ++ (" -i ").data ++ inputFile ++ (" -vf \"scale=").data ++ natDecimal width
    ++ (":-1\" -vcodec libx264 -crf 25 -pix_fmt yuv420p -y ").data ++ outputFile

/-- `_build_command`: derive the encoder glob, start number and output path
from the first destination file's own name. -/
def buildCommand (sequence name ext : Str) : Str × Str :=
  (ffmpegFormat FPS ((pySplitext name).1.drop 1)
      (pathJoin (pathJoin sequence ext)
        ((pySplitext name).1.take 1 ++ '%' :: (fmt03 ((pySplitext name).1.drop 1).length
          ++ 'd' :: (pySplitext name).2)))
      MOVIE_WIDTH
      (pathJoin sequence (pyBasename sequence ++ '.' :: MOVIE_EXTENSION)),
    pathJoin sequence (pyBasename sequence ++ '.' :: MOVIE_EXTENSION))

/-- `movies.setdefault(sequence, {}).setdefault(MOVIE_EXTENSION, []).append(out)`. -/
def moviesAdd : Manifest → Str → Str → Manifest
  | [], s, o => [(s, [(MOVIE_EXTENSION, [o])])]
  | (s', el) :: rest, s, o =>
    if s' = s then (s', dictAppend el MOVIE_EXTENSION o) :: rest
    else (s', el) :: moviesAdd rest s o

/-- `for ext in sorted_files[sequence]`: only the primary (JPG) extension,
compared after uppercasing, produces a clip; the command is executed only
outside dry-run, and its exit status never aborts the batch. -/
def movieExtsLoop (dry : Bool) (sequence : Str) :
    List (Str × List Str) → Manifest × SideState → Manifest × SideState
  | [], acc => acc
  | (e, names) :: rest, (movies, st) =>
    if pyUpper e ≠ IMG_SEQUENCE_EXTENSIONS.headI then movieExtsLoop dry sequence rest (movies, st)
    else
      movieExtsLoop dry sequence rest
        (moviesAdd movies sequence (buildCommand sequence names.headI e).2,
          if dry = true then st
          else { st with effects := st.effects ++ [FsEffect.exec (buildCommand sequence names.headI e).1] })

/-- `for sequence in sorted_files`. -/
def movieSeqLoop (dry : Bool) :
    List (Str × ExtLists) → Manifest × SideState → Manifest × SideState
  | [], acc => acc
  | (seqp, exts) :: rest, acc => movieSeqLoop dry rest (movieExtsLoop dry seqp exts acc)

/-- `_generate_movie`. -/
def generateMovie (dry : Bool) (sorted : Manifest) (st : SideState) : Manifest × SideState :=
  movieSeqLoop dry sorted ([], st)

/-! ## Batch Orchestrator (`sort_sequences`) -/

/-- The public `root_directory` argument: a single string or a list. -/
inductive RootArg
  | str (s : Str)
  | list (l : List Str)

/-- Everything observable after a call: the returned manifest (or the
propagated error), the module-level `(__VERBOSE, __DRYRUN)` pair, and the
filesystem/effect state. -/
structure SortOutcome where
  result : Except Unit Manifest
  globals : Bool × Bool
  state : SideState

/-- `sorted_files[sequence].update(movies[sequence])` for one sequence. -/
def dictUpdate (d upd : ExtLists) : ExtLists :=
  upd.foldl (fun d kv => dictSet d kv.1 kv.2) d

/-- `for sequence in movies: sorted_files[sequence].update(movies[sequence])`.
Movie keys always occur in the manifest, so the `KeyError` case cannot fire;
a missing key is modelled by the empty dictionary. -/
def mergeMovies (sorted movies : Manifest) : Manifest :=
  movies.foldl (fun acc sm => dictSet acc sm.1 (dictUpdate ((dictGet? acc sm.1).getD []) sm.2)) sorted

/-- `sort_sequences`.  `set_params(verbose, dryrun)` overwrites the two
module globals without reading them, so `preGlobals` is never consulted;
both the normal return and the exception path reset them to
`(False, False)`. -/
def sortSequences (walk : Str → List (Str × List Str)) (preGlobals : Bool × Bool)
    (rootDirectory : RootArg) (destinationDirectory : Str)
    (dryrun verbose movie : Bool) (st : SideState) : SortOutcome :=
  match mapSequenceFiles walk
      (match rootDirectory with | RootArg.str s => [s] | RootArg.list l => l) with
  | Except.error e => { result := Except.error e, globals := (false, false), state := st }
  | Except.ok m =>
    if movie = true then
      { result := Except.ok
          (mergeMovies (sortSequenceFiles dryrun m destinationDirectory st).1
            (generateMovie dryrun (sortSequenceFiles dryrun m destinationDirectory st).1
              (sortSequenceFiles dryrun m destinationDirectory st).2).1),
        globals := (false, false),
        state := (generateMovie dryrun (sortSequenceFiles dryrun m destinationDirectory st).1
          (sortSequenceFiles dryrun m destinationDirectory st).2).2 }
    else
      { result := Except.ok (sortSequenceFiles dryrun m destinationDirectory st).1,
        globals := (false, false),
        state := (sortSequenceFiles dryrun m destinationDirectory st).2 }

/-! ## Decimal rendering lemmas -/

theorem charDigit_toNat (d : Nat) (hd : d < 10) : (Char.ofNat (48 + d)).toNat = 48 + d := by
  interval_cases d <;> decide

theorem decVal_go (fuel : Nat) : ∀ (n a : Nat), n ≤ fuel →
    (natDigitsGo fuel n).foldl (fun a c => a * 10 + (c.toNat - 48)) a
      = a * 10 ^ (natDigitsGo fuel n).length + n := by
  induction fuel with
  | zero =>
    intro n a h
    interval_cases n
    simp [natDigitsGo]
  | succ fuel ih =>
    intro n a h
    by_cases hn : n = 0
    · simp [natDigitsGo, hn]
    · have hrec : n / 10 ≤ fuel := by omega
      rw [natDigitsGo, if_neg hn, List.foldl_append, ih (n / 10) a hrec]
      simp only [List.length_append, List.length_cons, List.length_nil, List.foldl_cons,
        List.foldl_nil]
      rw [charDigit_toNat (n % 10) (Nat.mod_lt _ (by omega))]
      have hq : 10 ^ ((natDigitsGo fuel (n / 10)).length + 1)
          = 10 ^ (natDigitsGo fuel (n / 10)).length * 10 := pow_succ 10 _
      have hdm : n / 10 * 10 + n % 10 = n := by omega
      rw [hq]
      ring_nf
      omega

theorem decVal_natDecimal (n : Nat) : decVal (natDecimal n) = n := by
  by_cases hn : n = 0
  · simp [natDecimal, hn, decVal]
  · rw [natDecimal, if_neg hn]
    simpa [decVal] using decVal_go (n + 1) n 0 (by omega)

theorem decVal_replicate_zero (k : Nat) (s : Str) :
    decVal (List.replicate k '0' ++ s) = decVal s := by
  induction k with
  | zero => simp
  | succ k ih =>
    rw [List.replicate_succ, List.cons_append]
    simpa [decVal] using ih

theorem fmt03_inj {a b : Nat} (h : fmt03 a = fmt03 b) : a = b := by
  have ha := decVal_natDecimal a
  have hb := decVal_natDecimal b
  have h2 : decVal (fmt03 a) = decVal (fmt03 b) := by rw [h]
  rw [fmt03, fmt03, decVal_replicate_zero, decVal_replicate_zero, ha, hb] at h2
  exact h2

theorem seqFolderName_inj {a b : Nat} (h : seqFolderName a = seqFolderName b) : a = b := by
  apply fmt03_inj
  simpa [seqFolderName] using h

theorem seqFolderName_head (n : Nat) : (seqFolderName n).head? = some 'S' := rfl

theorem pathJoin_seq_inj {dest : Str} {a b : Nat}
    (h : pathJoin dest (seqFolderName a) = pathJoin dest (seqFolderName b)) : a = b := by
  apply seqFolderName_inj
  rw [pathJoin, pathJoin, seqFolderName_head, seqFolderName_head] at h
  have hns : ¬ (some 'S' = some '/') := by decide
  rw [if_neg hns, if_neg hns] at h
  by_cases hd : dest = [] ∨ dest.getLast? = some '/'
  · rw [if_pos hd, if_pos hd] at h
    exact List.append_cancel_left h
  · rw [if_neg hd, if_neg hd] at h
    exact List.cons_injective (List.append_cancel_left h)

/-! ## Equivalence of the `groupby`-based partitioner with direct
contiguous-run splitting -/

/-- Direct splitting of a maximal `+1`-chain continuing `x`, plus the rest. -/
def runSplit (x : Int) : List Int → List Int × List Int
  | [] => ([], [])
  | y :: ys =>
    if y = x + 1 then ((runSplit y ys).1.cons y, (runSplit y ys).2) else ([], y :: ys)

/-- Fueled direct chunking into maximal contiguous runs. -/
def chunkRunsGo : Nat → List Int → List (List Int)
  | 0, _ => []
  | _, [] => []
  | fuel + 1, x :: xs => (x :: (runSplit x xs).1) :: chunkRunsGo fuel (runSplit x xs).2

/-- Direct chunking into maximal contiguous runs. -/
def chunkRuns (l : List Int) : List (List Int) := chunkRunsGo l.length l

theorem runSplit_append (x : Int) : ∀ xs : List Int,
    (runSplit x xs).1 ++ (runSplit x xs).2 = xs := by
  intro xs
  induction xs generalizing x with
  | nil => simp [runSplit]
  | cons y ys ih =>
    by_cases hy : y = x + 1
    · subst hy
      simp [runSplit, ih]
    · simp [runSplit, hy]

theorem runSplit_snd_length (x : Int) (xs : List Int) :
    (runSplit x xs).2.length ≤ xs.length := by
  have := congrArg List.length (runSplit_append x xs)
  simp only [List.length_append] at this
  omega

theorem enumFrom_snd : ∀ (n : Nat) (l : List α), (List.enumFrom n l).map Prod.snd = l := by
  intro n l
  induction l generalizing n with
  | nil => rfl
  | cons x xs ih => simp [List.enumFrom, ih]

theorem enumFrom_fst : ∀ (n : Nat) (l : List α),
    (List.enumFrom n l).map Prod.fst = List.range' n l.length := by
  intro n l
  induction l generalizing n with
  | nil => rfl
  | cons x xs ih => simp [List.enumFrom, List.range'_succ, ih]

theorem length_enumFrom_eq : ∀ (n : Nat) (l : List α), (List.enumFrom n l).length = l.length := by
  intro n l
  induction l generalizing n with
  | nil => rfl
  | cons x xs ih => simp [List.enumFrom, ih]

theorem spanKey_enumFrom : ∀ (xs : List Int) (n : Nat) (x : Int),
    spanKey enumDiff ((n : Int) - x) (List.enumFrom (n + 1) xs)
      = (List.enumFrom (n + 1) (runSplit x xs).1,
         List.enumFrom (n + 1 + (runSplit x xs).1.length) (runSplit x xs).2) := by
  intro xs
  induction xs with
  | nil => intro n x; simp [spanKey, runSplit, List.enumFrom]
  | cons y ys ih =>
    intro n x
    by_cases hy : y = x + 1
    · have hkey : enumDiff (n + 1, y) = (n : Int) - x := by
        simp only [enumDiff]
        omega
      have hkey2 : ((n : Int) - x) = ((n + 1 : Nat) : Int) - y := by
        omega
      rw [List.enumFrom, spanKey, if_pos hkey, runSplit, if_pos hy]
      rw [hkey2, ih (n + 1) y]
      simp only [Prod.mk.injEq, List.cons, List.length_cons]
      refine ⟨rfl, ?_⟩
      congr 1
      omega
    · have hkey : ¬ enumDiff (n + 1, y) = (n : Int) - x := by
        simp only [enumDiff]
        omega
      rw [List.enumFrom, spanKey, if_neg hkey, runSplit, if_neg hy]
      simp [List.enumFrom]

theorem groupGo_enumFrom : ∀ (fuel : Nat) (l : List Int) (n : Nat), l.length ≤ fuel →
    (pyGroupByGo enumDiff fuel (List.enumFrom n l)).map (fun g => g.map Prod.snd)
      = chunkRunsGo fuel l := by
  intro fuel
  induction fuel with
  | zero =>
    intro l n h
    have : l = [] := List.length_eq_zero.mp (by omega)
    subst this
    rfl
  | succ fuel ih =>
    intro l n h
    cases l with
    | nil => rfl
    | cons x xs =>
      have hx : List.enumFrom n (x :: xs) = (n, x) :: List.enumFrom (n + 1) xs := rfl
      have hkey : enumDiff (n, x) = (n : Int) - x := rfl
      rw [hx, pyGroupByGo, hkey, spanKey_enumFrom xs n x, chunkRunsGo]
      simp only [List.map_cons, List.map_map]
      rw [ih (runSplit x xs).2 (n + 1 + (runSplit x xs).1.length)
        (le_trans (runSplit_snd_length x xs) (by simpa using h))]
      congr 1
      simp [enumFrom_snd]

theorem runsOfKeys_eq_chunkRuns (l : List Int) : runsOfKeys l = chunkRuns l := by
  have henum : l.enum = List.enumFrom 0 l := rfl
  have hlen : (l.enum).length = l.length := by rw [henum, length_enumFrom_eq]
  rw [runsOfKeys, pyGroupBy, hlen, henum, chunkRuns]
  exact groupGo_enumFrom l.length l 0 le_rfl

/-! ## Structure of the chunks -/

theorem chunkGo_flatten : ∀ (fuel : Nat) (l : List Int), l.length ≤ fuel →
    (chunkRunsGo fuel l).flatten = l := by
  intro fuel
  induction fuel with
  | zero =>
    intro l h
    have : l = [] := List.length_eq_zero.mp (by omega)
    subst this
    rfl
  | succ fuel ih =>
    intro l h
    cases l with
    | nil => rfl
    | cons x xs =>
      rw [chunkRunsGo, List.flatten_cons,
        ih (runSplit x xs).2 (le_trans (runSplit_snd_length x xs) (by simpa using h))]
      rw [List.cons_append, runSplit_append]

theorem chunkGo_ne_nil : ∀ (fuel : Nat) (l : List Int) (r : List Int),
    r ∈ chunkRunsGo fuel l → r ≠ [] := by
  intro fuel
  induction fuel with
  | zero => intro l r hr; simp [chunkRunsGo] at hr
  | succ fuel ih =>
    intro l r hr
    cases l with
    | nil => simp [chunkRunsGo] at hr
    | cons x xs =>
      rw [chunkRunsGo, List.mem_cons] at hr
      rcases hr with h | h
      · subst h; simp
      · exact ih _ r h

theorem runSplit_chain (x : Int) : ∀ xs : List Int,
    List.Chain (fun a b => b = a + 1) x (runSplit x xs).1 := by
  intro xs
  induction xs generalizing x with
  | nil => simp [runSplit]
  | cons y ys ih =>
    by_cases hy : y = x + 1
    · subst hy
      simp only [runSplit, if_pos rfl, List.cons]
      exact List.Chain.cons rfl (ih (x + 1))
    · simp [runSplit, hy]

theorem chunkGo_chain : ∀ (fuel : Nat) (l : List Int) (r : List Int),
    r ∈ chunkRunsGo fuel l → r.Chain' (fun a b => b = a + 1) := by
  intro fuel
  induction fuel with
  | zero => intro l r hr; simp [chunkRunsGo] at hr
  | succ fuel ih =>
    intro l r hr
    cases l with
    | nil => simp [chunkRunsGo] at hr
    | cons x xs =>
      rw [chunkRunsGo, List.mem_cons] at hr
      rcases hr with h | h
      · subst h
        exact runSplit_chain x xs
      · exact ih _ r h

theorem runSplit_break (x : Int) : ∀ (xs : List Int) (a b : Int),
    (x :: (runSplit x xs).1).getLast? = some a → (runSplit x xs).2.head? = some b →
    b ≠ a + 1 := by
  intro xs
  induction xs generalizing x with
  | nil => intro a b _ hb; simp [runSplit] at hb
  | cons y ys ih =>
    intro a b ha hb
    by_cases hy : y = x + 1
    · subst hy
      rw [runSplit, if_pos rfl] at ha hb
      simp only [List.cons] at ha hb
      rw [List.getLast?_cons_cons] at ha
      exact ih (x + 1) a b ha hb
    · rw [runSplit, if_neg hy] at ha hb
      simp at ha hb
      omega

theorem chunkGo_gap : ∀ (fuel : Nat) (l : List Int), l.length ≤ fuel →
    l.Chain' (· < ·) →
    (chunkRunsGo fuel l).Chain'
      (fun r s => ∀ a ∈ r.getLast?, ∀ b ∈ s.head?, a + 1 < b) := by
  intro fuel
  induction fuel with
  | zero => intro l h _; simp [chunkRunsGo]
  | succ fuel ih =>
    intro l h hs
    cases l with
    | nil => simp [chunkRunsGo]
    | cons x xs =>
      rw [chunkRunsGo]
      have hdecomp : x :: xs = (x :: (runSplit x xs).1) ++ (runSplit x xs).2 := by
        rw [List.cons_append, runSplit_append]
      rw [hdecomp, List.chain'_append] at hs
      rcases hs with ⟨hs1, hs2, hs3⟩
      rw [List.chain'_cons']
      refine ⟨?_, ih _ (le_trans (runSplit_snd_length x xs) (by simpa using h)) hs2⟩
      intro g hg a ha b hb
      have hgap := runSplit_break x xs a b ha
      cases hrest : (runSplit x xs).2 with
      | nil =>
        rw [hrest] at hg
        cases fuel <;> simp [chunkRunsGo] at hg
      | cons z zs =>
        have hfuel : 1 ≤ fuel := by
          have h1 := runSplit_snd_length x xs
          rw [hrest] at h1
          simp at h h1
          omega
        obtain ⟨fuel2, rfl⟩ : ∃ f2, fuel = f2 + 1 := ⟨fuel - 1, by omega⟩
        rw [hrest, chunkRunsGo] at hg
        simp only [List.head?_cons, Option.mem_def, Option.some.injEq] at hg
        subst hg
        simp only [List.head?_cons, Option.mem_def, Option.some.injEq] at hb
        have hlt : a < z := hs3 a ha z (by rw [hrest]; rfl)
        have hne : b ≠ a + 1 := hgap (by rw [hrest, List.head?_cons, hb])
        omega

/-- Packaging at the fuel-free level. -/
theorem chunkRuns_flatten (l : List Int) : (chunkRuns l).flatten = l :=
  chunkGo_flatten l.length l le_rfl

theorem chunkRuns_ne_nil {l : List Int} {r : List Int} (h : r ∈ chunkRuns l) : r ≠ [] :=
  chunkGo_ne_nil l.length l r h

theorem chunkRuns_chain {l : List Int} {r : List Int} (h : r ∈ chunkRuns l) :
    r.Chain' (fun a b => b = a + 1) :=
  chunkGo_chain l.length l r h

theorem chunkRuns_gap {l : List Int} (hs : l.Chain' (· < ·)) :
    (chunkRuns l).Chain' (fun r s => ∀ a ∈ r.getLast?, ∀ b ∈ s.head?, a + 1 < b) :=
  chunkGo_gap l.length l le_rfl hs

/-! ## Facts about the sorted key list -/

theorem sortedKeys_perm (m : FileIndex) : List.Perm (sortedKeys m) (indexKeys m) :=
  List.perm_insertionSort _ _

theorem sortedKeys_sorted (m : FileIndex) : (sortedKeys m).Sorted (· ≤ ·) :=
  List.sorted_insertionSort _ _

theorem sortedKeys_nodup {m : FileIndex} (h : (indexKeys m).Nodup) : (sortedKeys m).Nodup :=
  ((sortedKeys_perm m).nodup_iff).mpr h

theorem sortedKeys_chain_lt {m : FileIndex} (h : (indexKeys m).Nodup) :
    (sortedKeys m).Chain' (· < ·) :=
  ((sortedKeys_sorted m).lt_of_le (sortedKeys_nodup h)).chain'

theorem runsOf_eq_chunkRuns (m : FileIndex) : runsOf m = chunkRuns (sortedKeys m) :=
  runsOfKeys_eq_chunkRuns _

theorem runsOf_flatten_perm (m : FileIndex) : List.Perm (runsOf m).flatten (indexKeys m) := by
  rw [runsOf_eq_chunkRuns, chunkRuns_flatten]
  exact sortedKeys_perm m

/-- C1: For every FileIndex whose key list is duplicate-free (as Python dict
keys are), the partitioner's Runs partition the key set into maximal
contiguous runs: every key is covered, Runs are pairwise disjoint and
non-empty, neighbouring keys inside a Run differ by exactly one, and
between consecutive Runs there is a genuine gap of at least one missing
integer. -/
theorem c1_partition_invariant (m : FileIndex) (hnd : (indexKeys m).Nodup) :
    (∀ k : Int, (∃ r ∈ runsOf m, k ∈ r) ↔ k ∈ indexKeys m) ∧
    (runsOf m).Pairwise (fun r s => ∀ a ∈ r, a ∉ s) ∧
    (∀ r ∈ runsOf m, r ≠ []) ∧
    (∀ r ∈ runsOf m, r.Chain' (fun a b => b = a + 1)) ∧
    (runsOf m).Chain' (fun r s => ∀ a ∈ r.getLast?, ∀ b ∈ s.head?, a + 1 < b) := by
  have hflat : (runsOf m).flatten = sortedKeys m := by
    rw [runsOf_eq_chunkRuns, chunkRuns_flatten]
  refine ⟨?_, ?_, ?_, ?_, ?_⟩
  · intro k
    rw [← List.mem_flatten, hflat]
    exact (sortedKeys_perm m).mem_iff
  · have hndf : (runsOf m).flatten.Nodup := by
      rw [hflat]
      exact sortedKeys_nodup hnd
    exact (List.nodup_flatten.mp hndf).2.imp (fun h => List.disjoint_left.mp h)
  · intro r hr
    rw [runsOf_eq_chunkRuns] at hr
    exact chunkRuns_ne_nil hr
  · intro r hr
    rw [runsOf_eq_chunkRuns] at hr
    exact chunkRuns_chain hr
  · rw [runsOf_eq_chunkRuns]
    exact chunkRuns_gap (sortedKeys_chain_lt hnd)

/-- Witness for C1 at a concrete three-run index. -/
theorem c1_partition_invariant_witness :
    (([(7, [(['J', 'P', 'G'], ['p'])]), (1, []), (2, []), (12, [])] : FileIndex).map
        Prod.fst).Nodup ∧
    (∀ k : Int,
      (∃ r ∈ runsOf [(7, [(['J', 'P', 'G'], ['p'])]), (1, []), (2, []), (12, [])], k ∈ r) ↔
        k ∈ indexKeys [(7, [(['J', 'P', 'G'], ['p'])]), (1, []), (2, []), (12, [])]) :=
  ⟨by decide,
    (c1_partition_invariant [(7, [(['J', 'P', 'G'], ['p'])]), (1, []), (2, []), (12, [])]
      (by decide)).1⟩

/-! ## Dictionary lemmas -/

theorem dictGet?_dictSet_self [DecidableEq α] (d : List (α × β)) (k : α) (v : β) :
    dictGet? (dictSet d k v) k = some v := by
  induction d with
  | nil => simp [dictSet, dictGet?]
  | cons kv rest ih =>
    obtain ⟨k0, v0⟩ := kv
    by_cases hk : k0 = k
    · simp [dictSet, dictGet?, hk]
    · simp [dictSet, dictGet?, hk, ih]

theorem dictGet?_dictSet_other [DecidableEq α] (d : List (α × β)) (k : α) (v : β) (x : α)
    (hx : x ≠ k) : dictGet? (dictSet d k v) x = dictGet? d x := by
  induction d with
  | nil => simp [dictSet, dictGet?, Ne.symm hx]
  | cons kv rest ih =>
    obtain ⟨k0, v0⟩ := kv
    by_cases hk : k0 = k
    · subst hk
      simp [dictSet, dictGet?, Ne.symm hx]
    · by_cases hk0 : k0 = x
      · subst hk0
        simp [dictSet, dictGet?, hk]
      · simp [dictSet, dictGet?, hk, hk0, ih]

theorem dictKeys_dictSet [DecidableEq α] (d : List (α × β)) (k : α) (v : β) :
    dictKeys (dictSet d k v) = if k ∈ dictKeys d then dictKeys d else dictKeys d ++ [k] := by
  induction d with
  | nil => simp [dictSet, dictKeys]
  | cons kv rest ih =>
    obtain ⟨k0, v0⟩ := kv
    by_cases hk : k0 = k
    · subst hk
      simp [dictSet, dictKeys]
    · rw [dictSet, if_neg hk]
      have hmem : k ∈ dictKeys ((k0, v0) :: rest) ↔ k ∈ dictKeys rest := by
        simp [dictKeys, Ne.symm hk]
      by_cases hr : k ∈ dictKeys rest
      · rw [if_pos (hmem.mpr hr)]
        rw [if_pos hr] at ih
        simp only [dictKeys, List.map_cons] at ih ⊢
        rw [ih]
      · rw [if_neg (fun hh => hr (hmem.mp hh))]
        rw [if_neg hr] at ih
        simp only [dictKeys, List.map_cons] at ih ⊢
        rw [ih]
        rfl

theorem dictKeys_dictSet_nodup [DecidableEq α] {d : List (α × β)} (k : α) (v : β)
    (h : (dictKeys d).Nodup) : (dictKeys (dictSet d k v)).Nodup := by
  rw [dictKeys_dictSet]
  by_cases hk : k ∈ dictKeys d
  · simpa [hk] using h
  · simp [hk, h, List.nodup_append]

theorem mem_dictSet [DecidableEq α] {d : List (α × β)} {k : α} {v : β} {x : α × β}
    (h : x ∈ dictSet d k v) : x = (k, v) ∨ x ∈ d := by
  induction d with
  | nil => simpa [dictSet] using h
  | cons kv rest ih =>
    obtain ⟨k0, v0⟩ := kv
    by_cases hk : k0 = k
    · subst hk
      rw [dictSet, if_pos rfl, List.mem_cons] at h
      rcases h with h | h
      · left; exact h
      · right; exact List.mem_cons_of_mem _ h
    · rw [dictSet, if_neg hk, List.mem_cons] at h
      rcases h with h | h
      · right; exact h ▸ List.mem_cons_self _ _
      · rcases ih h with h | h
        · left; exact h
        · right; exact List.mem_cons_of_mem _ h

/-! ## Index insertion lemmas (`setdefault` + `update`) -/

theorem dictGet?_indexInsert_self (m : FileIndex) (k : Int) (e p : Str) :
    dictGet? (indexInsert m k e p) k = some (dictSet ((dictGet? m k).getD []) e p) := by
  induction m with
  | nil => simp [indexInsert, dictGet?, dictSet]
  | cons kd rest ih =>
    obtain ⟨k0, d0⟩ := kd
    by_cases hk : k0 = k
    · subst hk
      simp [indexInsert, dictGet?]
    · simp [indexInsert, dictGet?, hk, ih]

theorem dictGet?_indexInsert_other (m : FileIndex) (k : Int) (e p : Str) (x : Int)
    (hx : x ≠ k) : dictGet? (indexInsert m k e p) x = dictGet? m x := by
  induction m with
  | nil => simp [indexInsert, dictGet?, Ne.symm hx]
  | cons kd rest ih =>
    obtain ⟨k0, d0⟩ := kd
    by_cases hk : k0 = k
    · subst hk
      simp [indexInsert, dictGet?, Ne.symm hx]
    · by_cases hk0 : k0 = x
      · subst hk0
        simp [indexInsert, dictGet?, hk]
      · simp [indexInsert, dictGet?, hk, hk0, ih]

theorem indexKeys_indexInsert (m : FileIndex) (k : Int) (e p : Str) :
    indexKeys (indexInsert m k e p)
      = if k ∈ indexKeys m then indexKeys m else indexKeys m ++ [k] := by
  induction m with
  | nil => simp [indexInsert, indexKeys]
  | cons kd rest ih =>
    obtain ⟨k0, d0⟩ := kd
    by_cases hk : k0 = k
    · subst hk
      simp [indexInsert, indexKeys]
    · rw [indexInsert, if_neg hk]
      have hmem : k ∈ indexKeys ((k0, d0) :: rest) ↔ k ∈ indexKeys rest := by
        simp [indexKeys, Ne.symm hk]
      by_cases hr : k ∈ indexKeys rest
      · rw [if_pos (hmem.mpr hr)]
        rw [if_pos hr] at ih
        simp only [indexKeys, List.map_cons] at ih ⊢
        rw [ih]
      · rw [if_neg (fun hh => hr (hmem.mp hh))]
        rw [if_neg hr] at ih
        simp only [indexKeys, List.map_cons] at ih ⊢
        rw [ih]
        rfl

theorem indexKeys_indexInsert_nodup {m : FileIndex} (k : Int) (e p : Str)
    (h : (indexKeys m).Nodup) : (indexKeys (indexInsert m k e p)).Nodup := by
  rw [indexKeys_indexInsert]
  by_cases hk : k ∈ indexKeys m
  · simpa [hk] using h
  · simp [hk, h, List.nodup_append]

theorem inner_nodup_indexInsert {m : FileIndex} (k : Int) (e p : Str)
    (h : ∀ kd ∈ m, (dictKeys kd.2).Nodup) :
    ∀ kd ∈ indexInsert m k e p, (dictKeys kd.2).Nodup := by
  induction m with
  | nil =>
    intro kd hkd
    simp [indexInsert] at hkd
    subst hkd
    simp [dictKeys]
  | cons kd0 rest ih =>
    obtain ⟨k0, d0⟩ := kd0
    intro kd hkd
    by_cases hk : k0 = k
    · subst hk
      rw [indexInsert, if_pos rfl, List.mem_cons] at hkd
      rcases hkd with h1 | h1
      · subst h1
        exact dictKeys_dictSet_nodup e p (h (k0, d0) (List.mem_cons_self _ _))
      · exact h kd (List.mem_cons_of_mem _ h1)
    · rw [indexInsert, if_neg hk, List.mem_cons] at hkd
      rcases hkd with h1 | h1
      · subst h1
        exact h (k0, d0) (List.mem_cons_self _ _)
      · exact ih (fun kd2 h2 => h kd2 (List.mem_cons_of_mem _ h2)) kd h1

/-- Entries of `indexInsert` are the inserted entry or an old one. -/
theorem entry_indexInsert {m : FileIndex} {k : Int} {e p : Str} {kd : Int × FileDict}
    {ep : Str × Str} (hkd : kd ∈ indexInsert m k e p) (hep : ep ∈ kd.2) :
    (kd.1 = k ∧ ep = (e, p)) ∨ (∃ d0, (kd.1, d0) ∈ m ∧ ep ∈ d0) := by
  induction m with
  | nil =>
    simp [indexInsert] at hkd
    subst hkd
    simp at hep
    subst hep
    left
    exact ⟨rfl, rfl⟩
  | cons kd0 rest ih =>
    obtain ⟨k0, d0⟩ := kd0
    by_cases hk : k0 = k
    · subst hk
      rw [indexInsert, if_pos rfl, List.mem_cons] at hkd
      rcases hkd with h1 | h1
      · subst h1
        simp only at hep
        rcases mem_dictSet hep with h2 | h2
        · left; exact ⟨rfl, h2⟩
        · right; exact ⟨d0, List.mem_cons_self _ _, h2⟩
      · right
        obtain ⟨k1, d1⟩ := kd
        exact ⟨d1, List.mem_cons_of_mem _ h1, hep⟩
    · rw [indexInsert, if_neg hk, List.mem_cons] at hkd
      rcases hkd with h1 | h1
      · subst h1
        right
        exact ⟨d0, List.mem_cons_self _ _, hep⟩
      · rcases ih h1 with h2 | h2
        · left; exact h2
        · right
          obtain ⟨d2, hd2, hd3⟩ := h2
          exact ⟨d2, List.mem_cons_of_mem _ hd2, hd3⟩

/-- C8: within one index-build pass every `(MediaKey, Extension)` slot holds
at most one path (all dictionary key lists stay duplicate-free under
insertion), inserting a path for a pair makes that pair resolve to exactly
the new path (a later duplicate silently overwrites an earlier one), and
every other `(key, extension)` slot is left untouched. -/
theorem c8_last_write_wins (m : FileIndex) (k : Int) (e p : Str) (k' : Int) (e' : Str)
    (hne : k' ≠ k ∨ e' ≠ e) :
    indexLookup (indexInsert m k e p) k e = some p ∧
    indexLookup (indexInsert m k e p) k' e' = indexLookup m k' e' ∧
    ((indexKeys m).Nodup → (indexKeys (indexInsert m k e p)).Nodup) ∧
    ((∀ kd ∈ m, (dictKeys kd.2).Nodup) →
      ∀ kd ∈ indexInsert m k e p, (dictKeys kd.2).Nodup) := by
  refine ⟨?_, ?_, indexKeys_indexInsert_nodup k e p, inner_nodup_indexInsert k e p⟩
  · rw [indexLookup, dictGet?_indexInsert_self]
    simp [dictGet?_dictSet_self]
  · rcases hne with hne | hne
    · rw [indexLookup, indexLookup, dictGet?_indexInsert_other m k e p k' hne]
    · by_cases hk : k' = k
      · subst hk
        rw [indexLookup, indexLookup, dictGet?_indexInsert_self, Option.some_bind]
        rw [dictGet?_dictSet_other _ _ _ _ hne]
        cases hmk : dictGet? m k' with
        | none => simp [dictGet?]
        | some d0 => simp
      · rw [indexLookup, indexLookup, dictGet?_indexInsert_other m k e p k' hk]

/-- Witness for C8 at a concrete one-key index holding two extensions. -/
theorem c8_last_write_wins_witness :
    indexLookup (indexInsert [((1 : Int), [(['j'], ['a']), (['g'], ['b'])])] 1 ['j'] ['c'])
        1 ['j'] = some ['c'] ∧
    indexLookup (indexInsert [((1 : Int), [(['j'], ['a']), (['g'], ['b'])])] 1 ['j'] ['c'])
        1 ['g'] = indexLookup [((1 : Int), [(['j'], ['a']), (['g'], ['b'])])] 1 ['g'] := by
  have h := c8_last_write_wins [((1 : Int), [(['j'], ['a']), (['g'], ['b'])])] 1 ['j'] ['c']
    1 ['g'] (Or.inr (by decide))
  exact ⟨h.1, h.2.1⟩

/-! ## Invariants of the built index -/

/-- A `(dirpath, filename)` pair visited by the traversal of the batch. -/
def Visited (walk : Str → List (Str × List Str)) (roots : List Str) (dir fi : Str) : Prop :=
  ∃ root ∈ roots, ∃ fs, (dir, fs) ∈ walk root ∧ fi ∈ fs

/-- `os.walk` never yields filenames containing a path separator. -/
def NoSlashWalk (walk : Str → List (Str × List Str)) : Prop :=
  ∀ root df, df ∈ walk root → ∀ fi ∈ df.2, '/' ∉ fi

theorem mapFile_ok {m : FileIndex} {dir fi : Str} {m' : FileIndex}
    (h : mapFile m dir fi = Except.ok m') :
    ∃ k, pyInt ((pySplitext fi).1.drop 1) = some k ∧
      m' = indexInsert m k ((pySplitext fi).2.drop 1) (pathJoin dir fi) := by
  rw [mapFile] at h
  cases hp : pyInt ((pySplitext fi).1.drop 1) with
  | none => rw [hp] at h; simp at h
  | some k =>
    rw [hp] at h
    simp only [Except.ok.injEq] at h
    exact ⟨k, rfl, h.symm⟩

theorem filesLoop_inv (P : FileIndex → Prop) (dir : Str) :
    ∀ (files : List Str) (m m' : FileIndex),
      (∀ m0 fi m1, fi ∈ files → mapFile m0 dir fi = Except.ok m1 → P m0 → P m1) →
      filesLoop dir m files = Except.ok m' → P m → P m' := by
  intro files
  induction files with
  | nil =>
    intro m m' _ h hP
    rw [filesLoop] at h
    simp only [Except.ok.injEq] at h
    exact h ▸ hP
  | cons fi rest ih =>
    intro m m' hstep h hP
    rw [filesLoop] at h
    cases hmf : mapFile m dir fi with
    | error e => rw [hmf] at h; simp at h
    | ok m1 =>
      rw [hmf] at h
      exact ih m1 m' (fun m0 fi2 m2 hfi2 => hstep m0 fi2 m2 (List.mem_cons_of_mem _ hfi2)) h
        (hstep m fi m1 (List.mem_cons_self _ _) hmf hP)

theorem walkLoop_inv (P : FileIndex → Prop) :
    ∀ (entries : List (Str × List Str)) (m m' : FileIndex),
      (∀ m0 dir fi m1, (∃ fs, (dir, fs) ∈ entries ∧ fi ∈ fs) →
        mapFile m0 dir fi = Except.ok m1 → P m0 → P m1) →
      walkLoop m entries = Except.ok m' → P m → P m' := by
  intro entries
  induction entries with
  | nil =>
    intro m m' _ h hP
    rw [walkLoop] at h
    simp only [Except.ok.injEq] at h
    exact h ▸ hP
  | cons df rest ih =>
    obtain ⟨dir, fs⟩ := df
    intro m m' hstep h hP
    rw [walkLoop] at h
    cases hfl : filesLoop dir m fs with
    | error e => rw [hfl] at h; simp at h
    | ok m1 =>
      rw [hfl] at h
      have hP1 : P m1 := filesLoop_inv P dir fs m m1
        (fun m0 fi m2 hfi => hstep m0 dir fi m2 ⟨fs, List.mem_cons_self _ _, hfi⟩) hfl hP
      exact ih m1 m'
        (fun m0 dir2 fi m2 hv =>
          hstep m0 dir2 fi m2 (hv.imp (fun fs2 h2 => ⟨List.mem_cons_of_mem _ h2.1, h2.2⟩)))
        h hP1

theorem rootsLoop_inv (walk : Str → List (Str × List Str)) (P : FileIndex → Prop) :
    ∀ (roots : List Str) (m m' : FileIndex),
      (∀ m0 dir fi m1, Visited walk roots dir fi →
        mapFile m0 dir fi = Except.ok m1 → P m0 → P m1) →
      rootsLoop walk m roots = Except.ok m' → P m → P m' := by
  intro roots
  induction roots with
  | nil =>
    intro m m' _ h hP
    rw [rootsLoop] at h
    simp only [Except.ok.injEq] at h
    exact h ▸ hP
  | cons root rest ih =>
    intro m m' hstep h hP
    rw [rootsLoop] at h
    cases hwl : walkLoop m (walk root) with
    | error e => rw [hwl] at h; simp at h
    | ok m1 =>
      rw [hwl] at h
      have hP1 : P m1 := walkLoop_inv P (walk root) m m1
        (fun m0 dir fi m2 hv =>
          hstep m0 dir fi m2
            ⟨root, List.mem_cons_self _ _, hv.imp (fun fs h2 => ⟨h2.1, h2.2⟩)⟩) hwl hP
      exact ih m1 m'
        (fun m0 dir fi m2 hv =>
          hstep m0 dir fi m2 (hv.imp (fun r h2 => ⟨List.mem_cons_of_mem _ h2.1, h2.2⟩)))
        h hP1

theorem mapSequenceFiles_inv (walk : Str → List (Str × List Str)) (P : FileIndex → Prop)
    (roots : List Str) (m' : FileIndex)
    (hstep : ∀ m0 dir fi m1, Visited walk roots dir fi →
      mapFile m0 dir fi = Except.ok m1 → P m0 → P m1)
    (h : mapSequenceFiles walk roots = Except.ok m') (hnil : P []) : P m' :=
  rootsLoop_inv walk P roots [] m' hstep h hnil

theorem mapSequenceFiles_keys_nodup {walk : Str → List (Str × List Str)}
    {roots : List Str} {m : FileIndex} (h : mapSequenceFiles walk roots = Except.ok m) :
    (indexKeys m).Nodup := by
  refine mapSequenceFiles_inv walk (fun m0 => (indexKeys m0).Nodup) roots m ?_ h (by simp [indexKeys])
  intro m0 dir fi m1 _ hmf hP
  obtain ⟨k, _, rfl⟩ := mapFile_ok hmf
  exact indexKeys_indexInsert_nodup _ _ _ hP

theorem mapSequenceFiles_inner_nodup {walk : Str → List (Str × List Str)}
    {roots : List Str} {m : FileIndex} (h : mapSequenceFiles walk roots = Except.ok m) :
    ∀ kd ∈ m, (dictKeys kd.2).Nodup := by
  refine mapSequenceFiles_inv walk (fun m0 => ∀ kd ∈ m0, (dictKeys kd.2).Nodup) roots m ?_ h
    (by simp)
  intro m0 dir fi m1 _ hmf hP
  obtain ⟨k, _, rfl⟩ := mapFile_ok hmf
  exact inner_nodup_indexInsert _ _ _ hP

/-! ## Basenames of stored paths round-trip to the original filenames -/

theorem takeWhile_ne_append (l r : List Char) (hall : ∀ a ∈ l, a ≠ '/') :
    ((l ++ '/' :: r).takeWhile (fun c => c ≠ '/')) = l ∧
    (l.takeWhile (fun c => c ≠ '/')) = l := by
  induction l with
  | nil => simp [List.takeWhile]
  | cons a l ih =>
    have ha : a ≠ '/' := hall a (List.mem_cons_self _ _)
    have ih2 := ih (fun b hb => hall b (List.mem_cons_of_mem _ hb))
    have hstep : ∀ xs : List Char,
        List.takeWhile (fun c => decide (c ≠ '/')) (a :: xs)
          = a :: List.takeWhile (fun c => decide (c ≠ '/')) xs := by
      intro xs
      rw [List.takeWhile_cons]
      simp [ha]
    constructor
    · rw [List.cons_append, hstep, ih2.1]
    · rw [hstep, ih2.2]

theorem basename_pathJoin {dir fi : Str} (h : '/' ∉ fi) :
    pyBasename (pathJoin dir fi) = fi := by
  have hallrev : ∀ a ∈ fi.reverse, a ≠ '/' := by
    intro a ha hcontra
    exact h (hcontra ▸ List.mem_reverse.mp ha)
  have hhead : ¬ (fi.head? = some '/') := by
    cases fi with
    | nil => simp
    | cons c cs =>
      simp only [List.head?_cons, Option.some.injEq]
      intro hc
      exact h (hc ▸ List.mem_cons_self _ _)
  rw [pathJoin, if_neg hhead]
  by_cases hd : dir = [] ∨ dir.getLast? = some '/'
  · rw [if_pos hd]
    rcases hd with hd | hd
    · subst hd
      rw [List.nil_append, pyBasename, (takeWhile_ne_append fi.reverse [] hallrev).2,
        List.reverse_reverse]
    · obtain ⟨t, ht⟩ : ∃ t, dir.reverse = '/' :: t := by
        have : dir.reverse.head? = some '/' := by
          rw [List.head?_reverse]
          exact hd
        cases hdr : dir.reverse with
        | nil => rw [hdr] at this; simp at this
        | cons c t =>
          rw [hdr] at this
          simp only [List.head?_cons, Option.some.injEq] at this
          exact ⟨t, by rw [this]⟩
      rw [pyBasename, List.reverse_append, ht,
        (takeWhile_ne_append fi.reverse t hallrev).1, List.reverse_reverse]
  · rw [if_neg hd]
    rw [pyBasename, List.reverse_append, List.reverse_cons, List.append_assoc,
      List.singleton_append, (takeWhile_ne_append fi.reverse dir.reverse hallrev).1,
      List.reverse_reverse]

/-- Every stored entry's path has a basename that splits back into the
digits that produced the key and the extension it is filed under. -/
def GoodEntry (k : Int) (e p : Str) : Prop :=
  pyInt ((pySplitext (pyBasename p)).1.drop 1) = some k ∧
  (pySplitext (pyBasename p)).2.drop 1 = e

theorem mapSequenceFiles_entries {walk : Str → List (Str × List Str)}
    {roots : List Str} {m : FileIndex} (hw : NoSlashWalk walk)
    (h : mapSequenceFiles walk roots = Except.ok m) :
    ∀ kd ∈ m, ∀ ep ∈ kd.2, GoodEntry kd.1 ep.1 ep.2 := by
  refine mapSequenceFiles_inv walk (fun m0 => ∀ kd ∈ m0, ∀ ep ∈ kd.2, GoodEntry kd.1 ep.1 ep.2)
    roots m ?_ h (by simp)
  intro m0 dir fi m1 hv hmf hP
  obtain ⟨k, hk, rfl⟩ := mapFile_ok hmf
  have hslash : '/' ∉ fi := by
    obtain ⟨root, _, fs, hdf, hfi⟩ := hv
    exact hw root (dir, fs) hdf fi hfi
  have hbase : pyBasename (pathJoin dir fi) = fi := basename_pathJoin hslash
  intro kd hkd ep hep
  rcases entry_indexInsert hkd hep with ⟨hkk, hepv⟩ | ⟨d0, hd0, hepd⟩
  · rw [hepv, hkk]
    exact ⟨by rw [hbase]; exact hk, by rw [hbase]⟩
  · exact hP (kd.1, d0) hd0 ep hepd

/-! ## C3: unparseable digit portions -/

/-- A traversal containing one well-formed file and one foreign file whose
digit portion does not parse. -/
def c3walk : Str → List (Str × List Str) :=
  fun _ => [(("gopro100").data, [("G0001.JPG").data, ("foo.txt").data])]

/-- C3: the claim says a file whose digit portion does not parse as a
non-negative integer is skipped and the batch continues; the code instead
lets `int('oo')` raise `ValueError`, aborting the whole index build.  At
this input the builder returns the propagated error rather than an index
without the foreign file. -/
theorem c3_unparseable_aborts :
    mapSequenceFiles c3walk [("root").data] = Except.error () ∧
    pyInt ((pySplitext (("foo.txt").data)).1.drop 1) = none := ⟨rfl, rfl⟩

/-! ## C7: extension case is preserved, not uppercased -/

/-- A traversal containing a single lower-case-extension file. -/
def c7walk : Str → List (Str × List Str) :=
  fun _ => [(("gopro").data, [("G7.jpg").data])]

/-- C7 counterexample: a file with extension `.jpg` is stored under the
key `"jpg"` exactly as written — not under the uppercase normalization
`"JPG"` the claim requires. -/
theorem c7_counterexample :
    mapSequenceFiles c7walk [("r").data]
      = Except.ok [((7 : Int), [(("jpg").data, ("gopro/G7.jpg").data)])] ∧
    indexLookup [((7 : Int), [(("jpg").data, ("gopro/G7.jpg").data)])] 7 (("JPG").data)
      = none ∧
    pyUpper (("jpg").data) = ("JPG").data := ⟨rfl, rfl, rfl⟩

/-- C7 amended: the extension under which an indexed file is stored (and
hence the extension key of the manifest) is the file's extension with the
leading separator removed and its letter case preserved as-is; no uppercase
normalization is applied. -/
theorem c7_extension_stored_as_is (walk : Str → List (Str × List Str)) (roots : List Str)
    (m : FileIndex) (hw : NoSlashWalk walk) (h : mapSequenceFiles walk roots = Except.ok m) :
    ∀ kd ∈ m, ∀ ep ∈ kd.2, ep.1 = (pySplitext (pyBasename ep.2)).2.drop 1 :=
  fun kd hkd ep hep => ((mapSequenceFiles_entries hw h) kd hkd ep hep).2.symm

/-- Witness for the amended C7 at the `c7walk` input. -/
theorem c7_extension_stored_as_is_witness :
    ("jpg").data = (pySplitext (pyBasename (("gopro/G7.jpg").data))).2.drop 1 := by
  have hw : NoSlashWalk c7walk := by
    intro root df hdf fi hfi
    simp only [c7walk, List.mem_singleton] at hdf
    subst hdf
    simp only [List.mem_singleton] at hfi
    subst hfi
    decide
  exact c7_extension_stored_as_is c7walk [("r").data]
    [((7 : Int), [(("jpg").data, ("gopro/G7.jpg").data)])] hw rfl
    ((7 : Int), [(("jpg").data, ("gopro/G7.jpg").data)]) (by simp)
    ((("jpg").data, ("gopro/G7.jpg").data)) (by simp)

/-! ## C9: module-level toggles are reset, not restored -/

/-- C9 amended: every call of `sort_sequences` (returning or raising)
leaves the module globals `(__VERBOSE, __DRYRUN)` equal to the defaults
`(False, False)`; the pre-call configuration is therefore preserved exactly
when it already was the default, and clobbered otherwise. -/
theorem c9_globals_reset (walk : Str → List (Str × List Str)) (g0 : Bool × Bool)
    (ra : RootArg) (dest : Str) (dry verb movie : Bool) (st : SideState) :
    (sortSequences walk g0 ra dest dry verb movie st).globals = (false, false) := by
  simp only [sortSequences]
  split
  · rfl
  · split <;> rfl

/-- C9 counterexample: with pre-call globals `(True, True)` the call does
not leave the process-wide configuration unchanged — it resets it. -/
theorem c9_counterexample :
    (sortSequences (fun _ => []) (true, true) (RootArg.list []) [] false false false
        ⟨[], []⟩).globals ≠ (true, true) := by decide

/-! ## C10: a bare string root equals its singleton list -/

/-- C10: calling `sort_sequences` with a plain-string `root_directory` is
indistinguishable from calling it with the singleton list of that string:
results, globals and side effects all coincide. -/
theorem c10_root_string_eq_singleton (walk : Str → List (Str × List Str))
    (g0 : Bool × Bool) (s dest : Str) (dry verb movie : Bool) (st : SideState) :
    sortSequences walk g0 (RootArg.str s) dest dry verb movie st
      = sortSequences walk g0 (RootArg.list [s]) dest dry verb movie st := rfl

/-! ## Pure projections of the stateful loops

The manifest computed by `_sort_sequence_files` and the movies dictionary
computed by `_generate_movie` depend neither on the dry-run flag nor on the
filesystem state; these pure projections make that explicit. -/

/-- Manifest component of `extsLoop`. -/
def extsLoopPure : List (Str × Str) → ExtLists → ExtLists
  | [], el => el
  | (e, p) :: rest, el => extsLoopPure rest (dictAppend el e (pyBasename p))

/-- Manifest component of `keysLoop`. -/
def keysLoopPure (m : FileIndex) : List Int → ExtLists → ExtLists
  | [], el => el
  | k :: rest, el => keysLoopPure m rest (extsLoopPure ((dictGet? m k).getD []) el)

/-- The per-extension lists a Run contributes to the manifest. -/
def runExtLists (m : FileIndex) (r : List Int) : ExtLists := keysLoopPure m r []

/-- Manifest component of `runsLoop`. -/
def runsLoopPure (m : FileIndex) (dest : Str) : List (List Int) → Nat → Manifest → Manifest
  | [], _, man => man
  | r :: rest, c, man =>
    runsLoopPure m dest rest (c + 1)
      (dictSet (dictSet man (pathJoin dest (seqFolderName c)) [])
        (pathJoin dest (seqFolderName c)) (runExtLists m r))

/-- Manifest component of `_sort_sequence_files`. -/
def sortSequenceFilesPure (m : FileIndex) (dest : Str) : Manifest :=
  runsLoopPure m dest (runsOf m) 1 []

/-- Movies component of `movieExtsLoop`. -/
def movieExtsLoopPure (sequence : Str) : List (Str × List Str) → Manifest → Manifest
  | [], mov => mov
  | (e, names) :: rest, mov =>
    if pyUpper e ≠ IMG_SEQUENCE_EXTENSIONS.headI then movieExtsLoopPure sequence rest mov
    else movieExtsLoopPure sequence rest
      (moviesAdd mov sequence (buildCommand sequence names.headI e).2)

/-- Movies component of `movieSeqLoop`. -/
def movieSeqLoopPure : List (Str × ExtLists) → Manifest → Manifest
  | [], mov => mov
  | (seqp, exts) :: rest, mov => movieSeqLoopPure rest (movieExtsLoopPure seqp exts mov)

theorem extsLoop_fst (dry : Bool) (folder : Str) :
    ∀ (entries : List (Str × Str)) (el : ExtLists) (st : SideState),
      (extsLoop dry folder entries (el, st)).1 = extsLoopPure entries el := by
  intro entries
  induction entries with
  | nil => intro el st; rfl
  | cons ep rest ih =>
    obtain ⟨e, p⟩ := ep
    intro el st
    rw [extsLoop, extsLoopPure]
    exact ih _ _

theorem keysLoop_fst (dry : Bool) (m : FileIndex) (folder : Str) :
    ∀ (ks : List Int) (el : ExtLists) (st : SideState),
      (keysLoop dry m folder ks (el, st)).1 = keysLoopPure m ks el := by
  intro ks
  induction ks with
  | nil => intro el st; rfl
  | cons k rest ih =>
    intro el st
    rw [keysLoop, keysLoopPure]
    have hsplit : extsLoop dry folder ((dictGet? m k).getD []) (el, st)
        = ((extsLoop dry folder ((dictGet? m k).getD []) (el, st)).1,
           (extsLoop dry folder ((dictGet? m k).getD []) (el, st)).2) := rfl
    rw [hsplit, extsLoop_fst]
    exact ih _ _

theorem runsLoop_fst (dry : Bool) (m : FileIndex) (dest : Str) :
    ∀ (runs : List (List Int)) (c : Nat) (man : Manifest) (st : SideState),
      (runsLoop dry m dest runs c man st).1 = runsLoopPure m dest runs c man := by
  intro runs
  induction runs with
  | nil => intro c man st; rfl
  | cons r rest ih =>
    intro c man st
    rw [runsLoop, runsLoopPure, keysLoop_fst]
    exact ih _ _ _

theorem sortSequenceFiles_fst (dry : Bool) (m : FileIndex) (dest : Str) (st : SideState) :
    (sortSequenceFiles dry m dest st).1 = sortSequenceFilesPure m dest :=
  runsLoop_fst dry m dest (runsOf m) 1 [] st

theorem movieExtsLoop_fst (dry : Bool) (sequence : Str) :
    ∀ (exts : List (Str × List Str)) (mov : Manifest) (st : SideState),
      (movieExtsLoop dry sequence exts (mov, st)).1 = movieExtsLoopPure sequence exts mov := by
  intro exts
  induction exts with
  | nil => intro mov st; rfl
  | cons en rest ih =>
    obtain ⟨e, names⟩ := en
    intro mov st
    rw [movieExtsLoop, movieExtsLoopPure]
    by_cases hc : pyUpper e ≠ IMG_SEQUENCE_EXTENSIONS.headI
    · rw [if_pos hc, if_pos hc]
      exact ih _ _
    · rw [if_neg hc, if_neg hc]
      exact ih _ _

theorem movieSeqLoop_fst (dry : Bool) :
    ∀ (entries : List (Str × ExtLists)) (mov : Manifest) (st : SideState),
      (movieSeqLoop dry entries (mov, st)).1 = movieSeqLoopPure entries mov := by
  intro entries
  induction entries with
  | nil => intro mov st; rfl
  | cons se rest ih =>
    obtain ⟨seqp, exts⟩ := se
    intro mov st
    rw [movieSeqLoop, movieSeqLoopPure]
    have hsplit : movieExtsLoop dry seqp exts (mov, st)
        = ((movieExtsLoop dry seqp exts (mov, st)).1,
           (movieExtsLoop dry seqp exts (mov, st)).2) := rfl
    rw [hsplit, movieExtsLoop_fst]
    exact ih _ _

theorem generateMovie_fst (dry : Bool) (sorted : Manifest) (st : SideState) :
    (generateMovie dry sorted st).1 = movieSeqLoopPure sorted [] :=
  movieSeqLoop_fst dry sorted [] st

/-! ## Dry-run performs no effects -/

theorem osMkdir_dry (st : SideState) (p : Str) : osMkdir true st p = st := by
  rw [osMkdir]
  simp

theorem moveFile_dry (st : SideState) (src dst : Str) : moveFile true st src dst = st := by
  rw [moveFile]
  simp

theorem extsLoop_dry_snd (folder : Str) :
    ∀ (entries : List (Str × Str)) (el : ExtLists) (st : SideState),
      (extsLoop true folder entries (el, st)).2 = st := by
  intro entries
  induction entries with
  | nil => intro el st; rfl
  | cons ep rest ih =>
    obtain ⟨e, p⟩ := ep
    intro el st
    rw [extsLoop, osMkdir_dry, moveFile_dry]
    exact ih _ _

theorem keysLoop_dry_snd (m : FileIndex) (folder : Str) :
    ∀ (ks : List Int) (el : ExtLists) (st : SideState),
      (keysLoop true m folder ks (el, st)).2 = st := by
  intro ks
  induction ks with
  | nil => intro el st; rfl
  | cons k rest ih =>
    intro el st
    rw [keysLoop]
    have hsplit : extsLoop true folder ((dictGet? m k).getD []) (el, st)
        = ((extsLoop true folder ((dictGet? m k).getD []) (el, st)).1,
           (extsLoop true folder ((dictGet? m k).getD []) (el, st)).2) := rfl
    rw [hsplit, extsLoop_dry_snd]
    exact ih _ _

theorem runsLoop_dry_snd (m : FileIndex) (dest : Str) :
    ∀ (runs : List (List Int)) (c : Nat) (man : Manifest) (st : SideState),
      (runsLoop true m dest runs c man st).2 = st := by
  intro runs
  induction runs with
  | nil => intro c man st; rfl
  | cons r rest ih =>
    intro c man st
    rw [runsLoop, osMkdir_dry, keysLoop_dry_snd]
    exact ih _ _ _

theorem sortSequenceFiles_dry_snd (m : FileIndex) (dest : Str) (st : SideState) :
    (sortSequenceFiles true m dest st).2 = st :=
  runsLoop_dry_snd m dest (runsOf m) 1 [] st

theorem movieExtsLoop_dry_snd (sequence : Str) :
    ∀ (exts : List (Str × List Str)) (mov : Manifest) (st : SideState),
      (movieExtsLoop true sequence exts (mov, st)).2 = st := by
  intro exts
  induction exts with
  | nil => intro mov st; rfl
  | cons en rest ih =>
    obtain ⟨e, names⟩ := en
    intro mov st
    rw [movieExtsLoop]
    by_cases hc : pyUpper e ≠ IMG_SEQUENCE_EXTENSIONS.headI
    · rw [if_pos hc]
      exact ih _ _
    · rw [if_neg hc, if_pos rfl]
      exact ih _ _

theorem movieSeqLoop_dry_snd :
    ∀ (entries : List (Str × ExtLists)) (mov : Manifest) (st : SideState),
      (movieSeqLoop true entries (mov, st)).2 = st := by
  intro entries
  induction entries with
  | nil => intro mov st; rfl
  | cons se rest ih =>
    obtain ⟨seqp, exts⟩ := se
    intro mov st
    rw [movieSeqLoop]
    have hsplit : movieExtsLoop true seqp exts (mov, st)
        = ((movieExtsLoop true seqp exts (mov, st)).1,
           (movieExtsLoop true seqp exts (mov, st)).2) := rfl
    rw [hsplit, movieExtsLoop_fst, movieExtsLoop_dry_snd]
    exact ih _ _

theorem generateMovie_dry_snd (sorted : Manifest) (st : SideState) :
    (generateMovie true sorted st).2 = st :=
  movieSeqLoop_dry_snd sorted [] st

/-- C6: a dry run returns exactly the same result (the same manifest, or
the same propagated error) as a real run on the same input tree, while
performing zero filesystem mutation and zero subprocess execution: its
whole effect trace is empty and the set of existing paths is untouched. -/
theorem c6_dryrun_equivalence (walk : Str → List (Str × List Str)) (g0 : Bool × Bool)
    (ra : RootArg) (dest : Str) (verb movie : Bool) (fs : List Str) :
    (sortSequences walk g0 ra dest true verb movie ⟨fs, []⟩).result
      = (sortSequences walk g0 ra dest false verb movie ⟨fs, []⟩).result ∧
    (sortSequences walk g0 ra dest true verb movie ⟨fs, []⟩).state = ⟨fs, []⟩ := by
  simp only [sortSequences]
  cases hm : mapSequenceFiles walk
      (match ra with | RootArg.str s => [s] | RootArg.list l => l) with
  | error e => exact ⟨rfl, rfl⟩
  | ok m =>
    cases movie with
    | false =>
      simp only [Bool.false_eq_true, if_false]
      refine ⟨?_, ?_⟩
      · simp only [sortSequenceFiles_fst]
      · simp only [sortSequenceFiles_dry_snd]
    | true =>
      simp only [if_true]
      refine ⟨?_, ?_⟩
      · simp only [sortSequenceFiles_fst, generateMovie_fst]
      · simp only [sortSequenceFiles_fst, sortSequenceFiles_dry_snd, generateMovie_dry_snd]

/-! ## Characterization of the produced manifest -/

theorem dictGet?_dictAppend_self (el : ExtLists) (e : Str) (b : Str) :
    dictGet? (dictAppend el e b) e = some ((dictGet? el e).getD [] ++ [b]) := by
  induction el with
  | nil => simp [dictAppend, dictGet?]
  | cons kv rest ih =>
    obtain ⟨k0, l0⟩ := kv
    by_cases hk : k0 = e
    · subst hk
      simp [dictAppend, dictGet?]
    · simp [dictAppend, dictGet?, hk, ih]

theorem dictGet?_dictAppend_other (el : ExtLists) (e : Str) (b : Str) (x : Str)
    (hx : x ≠ e) : dictGet? (dictAppend el e b) x = dictGet? el x := by
  induction el with
  | nil => simp [dictAppend, dictGet?, Ne.symm hx]
  | cons kv rest ih =>
    obtain ⟨k0, l0⟩ := kv
    by_cases hk : k0 = e
    · subst hk
      simp [dictAppend, dictGet?, Ne.symm hx]
    · by_cases hk0 : k0 = x
      · subst hk0
        simp [dictAppend, dictGet?, hk]
      · simp [dictAppend, dictGet?, hk, hk0, ih]

theorem dictKeys_dictAppend (el : ExtLists) (e : Str) (b : Str) :
    dictKeys (dictAppend el e b)
      = if e ∈ dictKeys el then dictKeys el else dictKeys el ++ [e] := by
  induction el with
  | nil => simp [dictAppend, dictKeys]
  | cons kv rest ih =>
    obtain ⟨k0, l0⟩ := kv
    by_cases hk : k0 = e
    · subst hk
      simp [dictAppend, dictKeys]
    · rw [dictAppend, if_neg hk]
      have hmem : e ∈ dictKeys ((k0, l0) :: rest) ↔ e ∈ dictKeys rest := by
        simp [dictKeys, Ne.symm hk]
      by_cases hr : e ∈ dictKeys rest
      · rw [if_pos (hmem.mpr hr)]
        rw [if_pos hr] at ih
        simp only [dictKeys, List.map_cons] at ih ⊢
        rw [ih]
      · rw [if_neg (fun hh => hr (hmem.mp hh))]
        rw [if_neg hr] at ih
        simp only [dictKeys, List.map_cons] at ih ⊢
        rw [ih]
        rfl

theorem dictKeys_dictAppend_nodup {el : ExtLists} (e : Str) (b : Str)
    (h : (dictKeys el).Nodup) : (dictKeys (dictAppend el e b)).Nodup := by
  rw [dictKeys_dictAppend]
  by_cases hk : e ∈ dictKeys el
  · simpa [hk] using h
  · simp [hk, h, List.nodup_append]

theorem dictGet?_eq_none [DecidableEq α] {d : List (α × β)} {x : α}
    (hx : x ∉ dictKeys d) : dictGet? d x = none := by
  induction d with
  | nil => rfl
  | cons kv rest ih =>
    obtain ⟨k0, v0⟩ := kv
    have hk : k0 ≠ x := by
      intro hc
      exact hx (hc ▸ List.mem_cons_self _ _)
    rw [dictGet?, if_neg hk]
    exact ih (fun hc => hx (List.mem_cons_of_mem _ hc))

theorem dictGet?_mem [DecidableEq α] {d : List (α × β)} {x : α} {v : β}
    (h : dictGet? d x = some v) : (x, v) ∈ d := by
  induction d with
  | nil => simp [dictGet?] at h
  | cons kv rest ih =>
    obtain ⟨k0, v0⟩ := kv
    by_cases hk : k0 = x
    · subst hk
      rw [dictGet?, if_pos rfl] at h
      simp only [Option.some.injEq] at h
      subst h
      exact List.mem_cons_self _ _
    · rw [dictGet?, if_neg hk] at h
      exact List.mem_cons_of_mem _ (ih h)

theorem mem_dictGet? [DecidableEq α] {d : List (α × β)} {x : α} {v : β}
    (hnd : (dictKeys d).Nodup) (h : (x, v) ∈ d) : dictGet? d x = some v := by
  induction d with
  | nil => simp at h
  | cons kv rest ih =>
    obtain ⟨k0, v0⟩ := kv
    rw [List.mem_cons] at h
    rw [dictKeys, List.map_cons, List.nodup_cons] at hnd
    rcases h with h | h
    · rw [Prod.mk.injEq] at h
      rw [dictGet?, if_pos h.1.symm]
      exact congrArg some h.2.symm
    · have hx : x ∈ dictKeys rest := List.mem_map_of_mem Prod.fst h
      have hk : k0 ≠ x := fun hc => hnd.1 (hc ▸ hx)
      rw [dictGet?, if_neg hk]
      exact ih hnd.2 h

theorem dictSet_fresh [DecidableEq α] {d : List (α × β)} {k : α} (v : β)
    (h : k ∉ dictKeys d) : dictSet d k v = d ++ [(k, v)] := by
  induction d with
  | nil => rfl
  | cons kv rest ih =>
    obtain ⟨k0, v0⟩ := kv
    have hk : k0 ≠ k := by
      intro hc
      exact h (hc ▸ List.mem_cons_self _ _)
    rw [dictSet, if_neg hk, List.cons_append]
    rw [ih (fun hc => h (List.mem_cons_of_mem _ hc))]

theorem dictSet_append_of_fresh [DecidableEq α] {d : List (α × β)} {k : α} (v w : β)
    (h : k ∉ dictKeys d) : dictSet (d ++ [(k, v)]) k w = d ++ [(k, w)] := by
  induction d with
  | nil => simp [dictSet]
  | cons kv rest ih =>
    obtain ⟨k0, v0⟩ := kv
    have hk : k0 ≠ k := by
      intro hc
      exact h (hc ▸ List.mem_cons_self _ _)
    rw [List.cons_append, dictSet, if_neg hk, List.cons_append]
    rw [ih (fun hc => h (List.mem_cons_of_mem _ hc))]

theorem runsLoopPure_char (m : FileIndex) (dest : Str) :
    ∀ (runs : List (List Int)) (c : Nat) (man : Manifest),
      (∀ i, c ≤ i → pathJoin dest (seqFolderName i) ∉ dictKeys man) →
      runsLoopPure m dest runs c man
        = man ++ (List.enumFrom c runs).map
            (fun p => (pathJoin dest (seqFolderName p.1), runExtLists m p.2)) := by
  intro runs
  induction runs with
  | nil =>
    intro c man _
    simp [runsLoopPure, List.enumFrom]
  | cons r rest ih =>
    intro c man hfresh
    rw [runsLoopPure, dictSet_fresh [] (hfresh c le_rfl),
      dictSet_append_of_fresh [] (runExtLists m r) (hfresh c le_rfl)]
    rw [ih (c + 1) (man ++ [(pathJoin dest (seqFolderName c), runExtLists m r)]) ?_]
    · rw [List.enumFrom, List.map_cons, List.append_assoc, List.singleton_append]
    · intro i hi
      rw [dictKeys, List.map_append, List.mem_append]
      rintro (hmem | hmem)
      · exact hfresh i (by omega) hmem
      · simp only [List.map_cons, List.map_nil, List.mem_singleton] at hmem
        have := pathJoin_seq_inj hmem
        omega

theorem sortSequenceFilesPure_char (m : FileIndex) (dest : Str) :
    sortSequenceFilesPure m dest
      = (List.enumFrom 1 (runsOf m)).map
          (fun p => (pathJoin dest (seqFolderName p.1), runExtLists m p.2)) := by
  rw [sortSequenceFilesPure, runsLoopPure_char m dest (runsOf m) 1 [] (by simp [dictKeys])]
  rfl

theorem enumFrom_mem_snd {n : Nat} {l : List α} {c : Nat} {x : α}
    (h : (c, x) ∈ List.enumFrom n l) : x ∈ l := by
  induction l generalizing n with
  | nil => simp [List.enumFrom] at h
  | cons y ys ih =>
    rw [List.enumFrom, List.mem_cons] at h
    rcases h with h | h
    · rw [Prod.mk.injEq] at h
      exact h.2 ▸ List.mem_cons_self _ _
    · exact List.mem_cons_of_mem _ (ih h)

/-- Every manifest entry is the folder/per-extension table of one Run. -/
theorem manifest_entry {m : FileIndex} {dest seq : Str} {exts : ExtLists}
    (h : (seq, exts) ∈ sortSequenceFilesPure m dest) :
    ∃ c r, (c, r) ∈ List.enumFrom 1 (runsOf m) ∧ r ∈ runsOf m ∧
      seq = pathJoin dest (seqFolderName c) ∧ exts = runExtLists m r := by
  rw [sortSequenceFilesPure_char, List.mem_map] at h
  obtain ⟨⟨c, r⟩, hmem, heq⟩ := h
  rw [Prod.mk.injEq] at heq
  exact ⟨c, r, hmem, enumFrom_mem_snd hmem, heq.1.symm, heq.2.symm⟩

/-! ## Per-extension contents of a Run's manifest entry -/

/-- The basenames a run contributes for one extension: one per run key that
carries the extension, in run (ascending key) order. -/
def runContrib (m : FileIndex) (e : Str) (r : List Int) : List Str :=
  (r.filter (fun k => (indexLookup m k e).isSome)).map
    (fun k => pyBasename ((indexLookup m k e).getD []))

theorem indexLookup_eq_inner (m : FileIndex) (k : Int) (e : Str) :
    indexLookup m k e = dictGet? ((dictGet? m k).getD []) e := by
  rw [indexLookup]
  cases dictGet? m k with
  | none => simp [dictGet?]
  | some d => simp

theorem inner_dict_nodup {m : FileIndex} (hinner : ∀ kd ∈ m, (dictKeys kd.2).Nodup)
    (k : Int) : (dictKeys ((dictGet? m k).getD [])).Nodup := by
  cases h : dictGet? m k with
  | none => simp [dictKeys]
  | some d => exact hinner (k, d) (dictGet?_mem h)

theorem extsLoopPure_get (e : Str) :
    ∀ (d : FileDict) (el : ExtLists), (dictKeys d).Nodup →
      dictGet? (extsLoopPure d el) e
        = match dictGet? d e with
          | some p => some ((dictGet? el e).getD [] ++ [pyBasename p])
          | none => dictGet? el e := by
  intro d
  induction d with
  | nil =>
    intro el _
    simp [extsLoopPure, dictGet?]
  | cons ep rest ih =>
    obtain ⟨e0, p0⟩ := ep
    intro el hnd
    rw [dictKeys, List.map_cons, List.nodup_cons] at hnd
    rw [extsLoopPure, ih (dictAppend el e0 (pyBasename p0)) hnd.2]
    by_cases he : e0 = e
    · subst he
      have hre : dictGet? rest e0 = none := dictGet?_eq_none hnd.1
      rw [hre, dictGet?, if_pos rfl, dictGet?_dictAppend_self]
    · have hskip : dictGet? ((e0, p0) :: rest) e = dictGet? rest e := by
        rw [dictGet?, if_neg he]
      rw [hskip, dictGet?_dictAppend_other el e0 (pyBasename p0) e (Ne.symm he)]

theorem runContrib_cons (m : FileIndex) (e : Str) (k : Int) (r : List Int) :
    runContrib m e (k :: r)
      = if (indexLookup m k e).isSome = true
        then pyBasename ((indexLookup m k e).getD []) :: runContrib m e r
        else runContrib m e r := by
  rw [runContrib, List.filter_cons]
  by_cases h : (indexLookup m k e).isSome = true
  · simp only [h, if_true, List.map_cons]
    rfl
  · simp only [h, if_false]
    rfl

theorem keysLoopPure_get {m : FileIndex} (hinner : ∀ kd ∈ m, (dictKeys kd.2).Nodup)
    (e : Str) :
    ∀ (r : List Int) (el : ExtLists),
      dictGet? (keysLoopPure m r el) e
        = if runContrib m e r = [] then dictGet? el e
          else some ((dictGet? el e).getD [] ++ runContrib m e r) := by
  intro r
  induction r with
  | nil =>
    intro el
    simp [keysLoopPure, runContrib]
  | cons k rest ih =>
    intro el
    rw [keysLoopPure, ih, runContrib_cons]
    have hexts := extsLoopPure_get e ((dictGet? m k).getD [])
      el (inner_dict_nodup hinner k)
    rw [← indexLookup_eq_inner] at hexts
    cases hlk : indexLookup m k e with
    | none =>
      rw [hlk] at hexts
      simp only [Option.isSome_none, Bool.false_eq_true, if_false]
      rw [hexts]
    | some p =>
      rw [hlk] at hexts
      simp only [Option.isSome_some, if_true, Option.getD_some]
      by_cases hc : runContrib m e rest = []
      · have hne : pyBasename p :: runContrib m e rest ≠ [] := by simp
        rw [if_pos hc, if_neg hne, hexts, hc]
      · have hne : pyBasename p :: runContrib m e rest ≠ [] := by simp
        rw [if_neg hc, if_neg hne, hexts]
        simp [List.append_assoc]

theorem runExtLists_get {m : FileIndex} (hinner : ∀ kd ∈ m, (dictKeys kd.2).Nodup)
    (e : Str) (r : List Int) :
    dictGet? (runExtLists m r) e
      = if runContrib m e r = [] then none else some (runContrib m e r) := by
  rw [runExtLists, keysLoopPure_get hinner]
  simp [dictGet?]

theorem extsLoopPure_keys_nodup :
    ∀ (d : FileDict) (el : ExtLists), (dictKeys el).Nodup →
      (dictKeys (extsLoopPure d el)).Nodup := by
  intro d
  induction d with
  | nil => intro el h; exact h
  | cons ep rest ih =>
    obtain ⟨e0, p0⟩ := ep
    intro el h
    exact ih _ (dictKeys_dictAppend_nodup e0 (pyBasename p0) h)

theorem keysLoopPure_keys_nodup (m : FileIndex) :
    ∀ (r : List Int) (el : ExtLists), (dictKeys el).Nodup →
      (dictKeys (keysLoopPure m r el)).Nodup := by
  intro r
  induction r with
  | nil => intro el h; exact h
  | cons k rest ih =>
    intro el h
    exact ih _ (extsLoopPure_keys_nodup _ _ h)

theorem runExtLists_keys_nodup (m : FileIndex) (r : List Int) :
    (dictKeys (runExtLists m r)).Nodup :=
  keysLoopPure_keys_nodup m r [] (by simp [dictKeys])

/-- Membership in a Run's per-extension table pins the list down to the
run's contribution for that extension. -/
theorem mem_runExtLists {m : FileIndex} (hinner : ∀ kd ∈ m, (dictKeys kd.2).Nodup)
    {e : Str} {names : List Str} {r : List Int} (h : (e, names) ∈ runExtLists m r) :
    names = runContrib m e r ∧ runContrib m e r ≠ [] := by
  have hget := mem_dictGet? (runExtLists_keys_nodup m r) h
  rw [runExtLists_get hinner] at hget
  by_cases hc : runContrib m e r = []
  · rw [if_pos hc] at hget
    simp at hget
  · rw [if_neg hc] at hget
    simp only [Option.some.injEq] at hget
    exact ⟨hget.symm, hc⟩

/-! ## Ordering and stability of Runs -/

theorem chain_consec_head_le : ∀ (t : List Int) (x : Int),
    List.Chain (fun a b => b = a + 1) x t → ∀ k ∈ x :: t, x ≤ k := by
  intro t
  induction t with
  | nil =>
    intro x _ k hk
    simp at hk
    omega
  | cons y t2 ih =>
    intro x hc k hk
    cases hc with
    | cons hxy hc2 =>
      rw [List.mem_cons] at hk
      rcases hk with rfl | hk
      · exact le_rfl
      · have := ih y hc2 k hk
        omega

theorem chain'_imp_mem {R S : α → α → Prop} :
    ∀ {l : List α}, (∀ a ∈ l, ∀ b ∈ l, R a b → S a b) → l.Chain' R → l.Chain' S := by
  intro l
  induction l with
  | nil => intro _ _; trivial
  | cons x t ih =>
    intro h hc
    cases t with
    | nil => exact List.chain'_singleton x
    | cons y u =>
      rw [List.chain'_cons] at hc ⊢
      refine ⟨h x (List.mem_cons_self _ _) y
        (List.mem_cons_of_mem _ (List.mem_cons_self _ _)) hc.1, ?_⟩
      exact ih (fun a ha b hb => h a (List.mem_cons_of_mem _ ha) b (List.mem_cons_of_mem _ hb))
        hc.2

theorem runsOf_stable {m1 m2 : FileIndex} (hp : List.Perm (indexKeys m1) (indexKeys m2)) :
    runsOf m1 = runsOf m2 := by
  have hs : sortedKeys m1 = sortedKeys m2 :=
    List.eq_of_perm_of_sorted ((sortedKeys_perm m1).trans (hp.trans (sortedKeys_perm m2).symm))
      (sortedKeys_sorted m1) (sortedKeys_sorted m2)
  rw [runsOf, runsOf, hs]

theorem runsOf_head_min {m : FileIndex} {r : List Int} (hr : r ∈ runsOf m) :
    ∀ k ∈ r, r.headI ≤ k := by
  rw [runsOf_eq_chunkRuns] at hr
  have hne := chunkRuns_ne_nil hr
  have hch := chunkRuns_chain hr
  obtain ⟨a, t, rfl⟩ := List.exists_cons_of_ne_nil hne
  have hchain : List.Chain (fun a b => b = a + 1) a t := hch
  exact chain_consec_head_le t a hchain

theorem runsOf_heads_ascending {m : FileIndex} (hnd : (indexKeys m).Nodup) :
    ((runsOf m).map (fun r => r.headI)).Chain' (· < ·) := by
  rw [List.chain'_map]
  have hgap : (runsOf m).Chain' (fun r s => ∀ a ∈ r.getLast?, ∀ b ∈ s.head?, a + 1 < b) := by
    rw [runsOf_eq_chunkRuns]
    exact chunkRuns_gap (sortedKeys_chain_lt hnd)
  refine chain'_imp_mem ?_ hgap
  intro r hr s hs hg
  have hrne : r ≠ [] := by
    rw [runsOf_eq_chunkRuns] at hr
    exact chunkRuns_ne_nil hr
  have hsne : s ≠ [] := by
    rw [runsOf_eq_chunkRuns] at hs
    exact chunkRuns_ne_nil hs
  obtain ⟨a, t, rfl⟩ := List.exists_cons_of_ne_nil hrne
  obtain ⟨b, u, rfl⟩ := List.exists_cons_of_ne_nil hsne
  have hlast := List.getLast?_eq_getLast (a :: t) (by simp)
  have hglt := hg ((a :: t).getLast (by simp)) hlast b rfl
  have hle : a ≤ (a :: t).getLast (by simp) :=
    runsOf_head_min hr _ (List.getLast_mem _)
  simp only [List.headI]
  omega

/-- C5: Runs are emitted in ascending order of their minimum key (the head
of each Run is its minimum and heads strictly increase), the manifest's
folder paths follow that order with 1-based contiguous ordinals rendered as
`SEQ` plus the ordinal zero-padded to three digits (`SEQ001`, `SEQ002`, …),
and the partition is stable: any two indexes carrying the same keys in any
order produce identical Runs. -/
theorem c5_ordering_and_stability (m m2 : FileIndex) (dest : Str) (dry : Bool)
    (st : SideState) (hnd : (indexKeys m).Nodup)
    (hp : List.Perm (indexKeys m) (indexKeys m2)) :
    ((runsOf m).map (fun r => r.headI)).Chain' (· < ·) ∧
    (∀ r ∈ runsOf m, ∀ k ∈ r, r.headI ≤ k) ∧
    ((sortSequenceFiles dry m dest st).1.map Prod.fst
      = (List.range' 1 (runsOf m).length).map (fun c => pathJoin dest (seqFolderName c))) ∧
    seqFolderName 1 = ['S', 'E', 'Q', '0', '0', '1'] ∧
    runsOf m = runsOf m2 := by
  refine ⟨runsOf_heads_ascending hnd, fun r hr => runsOf_head_min hr, ?_, by decide,
    runsOf_stable hp⟩
  rw [sortSequenceFiles_fst, sortSequenceFilesPure_char, List.map_map]
  have h1 : (Prod.fst ∘ fun p : Nat × List Int =>
      (pathJoin dest (seqFolderName p.1), runExtLists m p.2))
      = (fun c => pathJoin dest (seqFolderName c)) ∘ Prod.fst := rfl
  rw [h1, ← List.map_map, enumFrom_fst]

/-- Witness for C5 at two presentations of the key set `{1, 2, 5}`. -/
theorem c5_ordering_and_stability_witness :
    runsOf [((2 : Int), ([] : FileDict)), (5, []), (1, [])]
      = runsOf [((5 : Int), ([] : FileDict)), (1, []), (2, [])] ∧
    ((sortSequenceFiles false [((2 : Int), ([] : FileDict)), (5, []), (1, [])] ['d']
        ⟨[], []⟩).1.map Prod.fst
      = (List.range' 1 (runsOf [((2 : Int), ([] : FileDict)), (5, []), (1, [])]).length).map
          (fun c => pathJoin ['d'] (seqFolderName c))) := by
  have h := c5_ordering_and_stability [((2 : Int), ([] : FileDict)), (5, []), (1, [])]
    [((5 : Int), ([] : FileDict)), (1, []), (2, [])] ['d'] false ⟨[], []⟩
    (by decide) (by decide)
  exact ⟨h.2.2.2.2, h.2.2.1⟩

/-! ## Frame extraction and contiguity (C2) -/

/-- Frame-number extraction used by the repository's own test harness
(`test_results`): `int(os.path.splitext(fname)[0][1:])` per listed name. -/
def extractedFrames (names : List Str) : List Int :=
  names.filterMap (fun fname => pyInt ((pySplitext fname).1.drop 1))

/-- `list(range(a, b + 1))` over integers. -/
def intRange (a b : Int) : List Int :=
  (List.range (b + 1 - a).toNat).map (fun (i : Nat) => a + (i : Int))

theorem intRange_self (a : Int) : intRange a a = [a] := by
  have h1 : (a + 1 - a).toNat = 1 := by omega
  rw [intRange, h1]
  simp [List.range_succ]

theorem intRange_cons {a b : Int} (h : a ≤ b) : intRange a b = a :: intRange (a + 1) b := by
  have h1 : (b + 1 - a).toNat = (b + 1 - (a + 1)).toNat + 1 := by omega
  rw [intRange, h1, List.range_succ_eq_map, List.map_cons, List.map_map, intRange]
  congr 1
  · simp
  · apply List.map_congr_left
    intro i _
    simp only [Function.comp]
    push_cast
    ring

theorem chain_consec_range : ∀ (l : List Int) (a b : Int),
    l.Chain' (fun x y => y = x + 1) →
    l.head? = some a → l.getLast? = some b → l = intRange a b ∧ a ≤ b := by
  intro l
  induction l with
  | nil =>
    intro a b _ ha
    simp at ha
  | cons x t ih =>
    intro a b hc ha hb
    simp only [List.head?_cons, Option.some.injEq] at ha
    subst ha
    cases t with
    | nil =>
      simp only [List.getLast?_singleton, Option.some.injEq] at hb
      subst hb
      exact ⟨(intRange_self x).symm, le_rfl⟩
    | cons y u =>
      rw [List.chain'_cons] at hc
      rw [List.getLast?_cons_cons] at hb
      have ihy := ih y b hc.2 rfl hb
      have hxy : y = x + 1 := hc.1
      have hle : x ≤ b := by
        have := ihy.2
        omega
      refine ⟨?_, hle⟩
      rw [intRange_cons hle, ← hxy, ← ihy.1]

theorem filterMap_eq_self_of {f : α → Option α} :
    ∀ {l : List α}, (∀ a ∈ l, f a = some a) → l.filterMap f = l := by
  intro l
  induction l with
  | nil => intro _; rfl
  | cons x t ih =>
    intro h
    rw [List.filterMap_cons, h x (List.mem_cons_self _ _),
      ih (fun a ha => h a (List.mem_cons_of_mem _ ha))]

theorem indexLookup_good {walk : Str → List (Str × List Str)} {roots : List Str}
    {m : FileIndex} (hw : NoSlashWalk walk) (h : mapSequenceFiles walk roots = Except.ok m) :
    ∀ (k : Int) (e p : Str), indexLookup m k e = some p → GoodEntry k e p := by
  intro k e p hl
  rw [indexLookup] at hl
  cases hd : dictGet? m k with
  | none => rw [hd] at hl; simp at hl
  | some d =>
    rw [hd] at hl
    simp only [Option.some_bind] at hl
    exact mapSequenceFiles_entries hw h (k, d) (dictGet?_mem hd) (e, p) (dictGet?_mem hl)

theorem extractedFrames_runContrib {m : FileIndex}
    (hgood : ∀ (k : Int) (e p : Str), indexLookup m k e = some p → GoodEntry k e p)
    (e : Str) (r : List Int) :
    extractedFrames (runContrib m e r)
      = r.filter (fun k => (indexLookup m k e).isSome) := by
  rw [extractedFrames, runContrib, List.filterMap_map]
  apply filterMap_eq_self_of
  intro k hk
  rw [List.mem_filter] at hk
  obtain ⟨p, hp⟩ : ∃ p, indexLookup m k e = some p :=
    Option.isSome_iff_exists.mp (by simpa using hk.2)
  simp only [Function.comp]
  rw [hp]
  simp only [Option.getD_some]
  exact (hgood k e p hp).1

theorem run_sorted_lt {m : FileIndex} {r : List Int} (hr : r ∈ runsOf m) :
    r.Sorted (· < ·) := by
  have hch : r.Chain' (fun a b => b = a + 1) := by
    rw [runsOf_eq_chunkRuns] at hr
    exact chunkRuns_chain hr
  have hlt : r.Chain' (· < ·) := hch.imp (fun hab => by omega)
  exact List.chain'_iff_pairwise.mp hlt

/-- C2 amended: for every extension list of every Run of a produced
manifest, the extracted frame numbers are exactly the Run's keys that carry
that extension, already in strictly ascending order (sorting leaves them
unchanged); they form the full inclusive integer range from their minimum
to their maximum whenever the extension is present at every key of the Run
— but sparse extensions leave gaps, so the unconditional range equality of
the original claim fails. -/
theorem c2_contiguity (walk : Str → List (Str × List Str)) (roots : List Str)
    (m : FileIndex) (dest : Str) (dry : Bool) (st : SideState) (seq : Str)
    (exts : ExtLists) (e : Str) (names : List Str)
    (hw : NoSlashWalk walk) (h : mapSequenceFiles walk roots = Except.ok m)
    (hseq : (seq, exts) ∈ (sortSequenceFiles dry m dest st).1)
    (hext : (e, names) ∈ exts) :
    ∃ r ∈ runsOf m,
      names = runContrib m e r ∧
      extractedFrames names = r.filter (fun k => (indexLookup m k e).isSome) ∧
      (extractedFrames names).Sorted (· < ·) ∧
      (extractedFrames names).insertionSort (· ≤ ·) = extractedFrames names ∧
      ((∀ k ∈ r, (indexLookup m k e).isSome) →
        ∀ a b, (extractedFrames names).head? = some a →
          (extractedFrames names).getLast? = some b →
          extractedFrames names = intRange a b) := by
  rw [sortSequenceFiles_fst] at hseq
  obtain ⟨c, r, _, hrmem, _, hexts⟩ := manifest_entry hseq
  subst hexts
  obtain ⟨hnames, _⟩ := mem_runExtLists (mapSequenceFiles_inner_nodup h) hext
  have hgood := indexLookup_good hw h
  have hextr : extractedFrames names = r.filter (fun k => (indexLookup m k e).isSome) := by
    rw [hnames]
    exact extractedFrames_runContrib hgood e r
  have hsorted : (extractedFrames names).Sorted (· < ·) := by
    rw [hextr]
    exact (run_sorted_lt hrmem).filter _
  refine ⟨r, hrmem, hnames, hextr, hsorted, ?_, ?_⟩
  · exact List.Sorted.insertionSort_eq (hsorted.imp (fun hab => le_of_lt hab))
  · intro hall a b ha hb
    have hfil : r.filter (fun k => (indexLookup m k e).isSome) = r :=
      List.filter_eq_self.mpr (fun k hk => hall k hk)
    rw [hextr, hfil] at ha hb ⊢
    have hch : r.Chain' (fun x y => y = x + 1) := by
      rw [runsOf_eq_chunkRuns] at hrmem
      exact chunkRuns_chain hrmem
    exact (chain_consec_range r a b hch ha hb).1

/-- A traversal with one Run `{1, 2, 3}` whose GPR pairing is sparse. -/
def c2walk : Str → List (Str × List Str) :=
  fun _ => [(("g").data,
    [("G1.JPG").data, ("G2.JPG").data, ("G3.JPG").data, ("G1.GPR").data, ("G3.GPR").data])]

/-- The index `c2walk` produces. -/
def c2index : FileIndex :=
  [(1, [(("JPG").data, ("g/G1.JPG").data), (("GPR").data, ("g/G1.GPR").data)]),
   (2, [(("JPG").data, ("g/G2.JPG").data)]),
   (3, [(("JPG").data, ("g/G3.JPG").data), (("GPR").data, ("g/G3.GPR").data)])]

/-- C2 counterexample: a Run `{1, 2, 3}` whose raw (GPR) pairing is sparse
(keys 1 and 3 only) produces a GPR list whose sorted extracted frame
numbers are `[1, 3]`, not the full inclusive range `[1, 2, 3]` from their
minimum to their maximum: the claimed per-extension contiguity invariant
fails for sparse extensions. -/
theorem c2_counterexample :
    (sortSequences c2walk (false, false) (RootArg.list [("r").data]) (("d").data)
        true false false ⟨[], []⟩).result
      = Except.ok [(("d/SEQ001").data,
          [(("JPG").data, [("G1.JPG").data, ("G2.JPG").data, ("G3.JPG").data]),
           (("GPR").data, [("G1.GPR").data, ("G3.GPR").data])])] ∧
    (extractedFrames [("G1.GPR").data, ("G3.GPR").data]).insertionSort (· ≤ ·)
      = [1, 3] ∧
    intRange 1 3 = [1, 2, 3] ∧
    ([1, 3] : List Int) ≠ [1, 2, 3] :=
  ⟨rfl, by decide, by decide, by decide⟩

/-- Witness for the amended C2 at the `c2walk` input, extension `GPR`. -/
theorem c2_contiguity_witness :
    ∃ r ∈ runsOf c2index,
      [("G1.GPR").data, ("G3.GPR").data] = runContrib c2index (("GPR").data) r ∧
      extractedFrames [("G1.GPR").data, ("G3.GPR").data]
        = r.filter (fun k => (indexLookup c2index k (("GPR").data)).isSome) ∧
      (extractedFrames [("G1.GPR").data, ("G3.GPR").data]).Sorted (· < ·) ∧
      (extractedFrames [("G1.GPR").data, ("G3.GPR").data]).insertionSort (· ≤ ·)
        = extractedFrames [("G1.GPR").data, ("G3.GPR").data] ∧
      ((∀ k ∈ r, (indexLookup c2index k (("GPR").data)).isSome) →
        ∀ a b, (extractedFrames [("G1.GPR").data, ("G3.GPR").data]).head? = some a →
          (extractedFrames [("G1.GPR").data, ("G3.GPR").data]).getLast? = some b →
          extractedFrames [("G1.GPR").data, ("G3.GPR").data] = intRange a b) := by
  have hw : NoSlashWalk c2walk := by
    intro root df hdf fi hfi
    simp only [c2walk, List.mem_singleton] at hdf
    subst hdf
    exact (by decide : ∀ x ∈ [("G1.JPG").data, ("G2.JPG").data, ("G3.JPG").data,
      ("G1.GPR").data, ("G3.GPR").data], '/' ∉ x) fi hfi
  exact c2_contiguity c2walk [("r").data] c2index (("d").data) true ⟨[], []⟩
    (("d/SEQ001").data)
    [(("JPG").data, [("G1.JPG").data, ("G2.JPG").data, ("G3.JPG").data]),
     (("GPR").data, [("G1.GPR").data, ("G3.GPR").data])]
    (("GPR").data) [("G1.GPR").data, ("G3.GPR").data]
    hw rfl (by decide) (by decide)

/-! ## C4: encoder command parameters -/

/-- A traversal whose Run `{1, 2}` has no JPG at the minimum key. -/
def c4walk : Str → List (Str × List Str) :=
  fun _ => [(("g").data, [("G1.GPR").data, ("G2.JPG").data])]

/-- The index `c4walk` produces. -/
def c4index : FileIndex :=
  [(1, [(("GPR").data, ("g/G1.GPR").data)]), (2, [(("JPG").data, ("g/G2.JPG").data)])]

/-- Modelled from the spec: the start offset the claim prescribes — "the
Run's minimum key, rendered using the literal digit width of the first
destination file's numeric suffix" — the decimal digits of the minimum key
zero-padded to the given width. -/
def specRenderedStart (minKey : Int) (width : Nat) : Str :=
  List.replicate (width - (natDecimal minKey.toNat).length) '0' ++ natDecimal minKey.toNat

/-- C4 counterexample: in the Run `{1, 2}` built from `G1.GPR` and
`G2.JPG`, the Run minimum is 1 but the encoder command is built from the
first JPG-listed file `G2.JPG`: its start number is the literal suffix
`"2"`, not the minimum key rendered at that file's one-digit width
(`"1"`). -/
theorem c4_counterexample :
    mapSequenceFiles c4walk [("r").data] = Except.ok c4index ∧
    runsOf c4index = [[1, 2]] ∧
    (sortSequenceFiles true c4index (("d").data) ⟨[], []⟩).1
      = [(("d/SEQ001").data,
          [(("GPR").data, [("G1.GPR").data]), (("JPG").data, [("G2.JPG").data])])] ∧
    (buildCommand (("d/SEQ001").data) (("G2.JPG").data) (("JPG").data)).1
      = ffmpegFormat FPS (("2").data) (("d/SEQ001/JPG/G%001d.JPG").data) MOVIE_WIDTH
          (("d/SEQ001/SEQ001.MP4").data) ∧
    specRenderedStart 1 1 = ("1").data ∧
    ffmpegFormat FPS (("2").data) (("d/SEQ001/JPG/G%001d.JPG").data) MOVIE_WIDTH
        (("d/SEQ001/SEQ001.MP4").data)
      ≠ ffmpegFormat FPS (specRenderedStart 1 1) (("d/SEQ001/JPG/G%001d.JPG").data)
          MOVIE_WIDTH (("d/SEQ001/SEQ001.MP4").data) :=
  ⟨rfl, by decide, rfl, rfl, by decide, by decide⟩

theorem sorted_head_min {l : List Int} (hs : l.Sorted (· < ·)) {a : Int}
    (ha : l.head? = some a) : ∀ b ∈ l, a ≤ b := by
  cases l with
  | nil => simp at ha
  | cons x t =>
    simp only [List.head?_cons, Option.some.injEq] at ha
    subst ha
    intro b hb
    rw [List.mem_cons] at hb
    rcases hb with rfl | hb
    · exact le_rfl
    · exact le_of_lt ((List.pairwise_cons.mp hs).1 b hb)

/-- C4 amended: the encoder command built from the first listed
primary-extension file `name` resolves its output to the run folder joined
with the folder's own basename plus the movie extension, uses an input glob
whose printf placeholder width is `name`'s own suffix width (not the
maximum across the Run), and uses `name`'s literal numeric suffix as start
number.  That suffix denotes the smallest Run key carrying the extension —
equal to the Run's minimum key whenever the minimum key itself has a
primary-extension entry, but not in general. -/
theorem c4_encoder_command (walk : Str → List (Str × List Str)) (roots : List Str)
    (m : FileIndex) (dest : Str) (dry : Bool) (st : SideState) (seq : Str)
    (exts : ExtLists) (e : Str) (names : List Str) (name : Str)
    (hw : NoSlashWalk walk) (h : mapSequenceFiles walk roots = Except.ok m)
    (hseq : (seq, exts) ∈ (sortSequenceFiles dry m dest st).1)
    (hext : (e, names) ∈ exts)
    (hjpg : pyUpper e = IMG_SEQUENCE_EXTENSIONS.headI)
    (hname : names.head? = some name) :
    (buildCommand seq name e).2 = pathJoin seq (pyBasename seq ++ '.' :: MOVIE_EXTENSION) ∧
    (buildCommand seq name e).1
      = ffmpegFormat FPS ((pySplitext name).1.drop 1)
          (pathJoin (pathJoin seq e)
            ((pySplitext name).1.take 1 ++ '%' :: (fmt03 ((pySplitext name).1.drop 1).length
              ++ 'd' :: (pySplitext name).2)))
          MOVIE_WIDTH (buildCommand seq name e).2 ∧
    ∃ r ∈ runsOf m, ∃ k0 : Int,
      pyInt ((pySplitext name).1.drop 1) = some k0 ∧
      k0 ∈ r ∧ (indexLookup m k0 e).isSome = true ∧
      (∀ k ∈ r, (indexLookup m k e).isSome = true → k0 ≤ k) ∧
      ((indexLookup m r.headI e).isSome = true → k0 = r.headI) := by
  refine ⟨rfl, rfl, ?_⟩
  rw [sortSequenceFiles_fst] at hseq
  obtain ⟨c, r, _, hrmem, _, hexts⟩ := manifest_entry hseq
  subst hexts
  obtain ⟨hnames, hne⟩ := mem_runExtLists (mapSequenceFiles_inner_nodup h) hext
  rw [runContrib] at hnames
  obtain ⟨k0, t, hfil⟩ : ∃ k0 t,
      r.filter (fun k => (indexLookup m k e).isSome) = k0 :: t := by
    cases hf : r.filter (fun k => (indexLookup m k e).isSome) with
    | nil =>
      exfalso
      apply hne
      rw [runContrib, hf]
      rfl
    | cons k0 t => exact ⟨k0, t, rfl⟩
  rw [hfil, List.map_cons] at hnames
  have hname0 : name = pyBasename ((indexLookup m k0 e).getD []) := by
    rw [hnames] at hname
    simp only [List.head?_cons, Option.some.injEq] at hname
    exact hname.symm
  have hk0mem : k0 ∈ r.filter (fun k => (indexLookup m k e).isSome) := by
    rw [hfil]
    exact List.mem_cons_self _ _
  rw [List.mem_filter] at hk0mem
  obtain ⟨p0, hp0⟩ : ∃ p0, indexLookup m k0 e = some p0 :=
    Option.isSome_iff_exists.mp (by simpa using hk0mem.2)
  have hgood := indexLookup_good hw h k0 e p0 hp0
  refine ⟨r, hrmem, k0, ?_, hk0mem.1, by simpa using hk0mem.2, ?_, ?_⟩
  · rw [hname0, hp0]
    simpa using hgood.1
  · intro k hk hksome
    have hsor : (r.filter (fun k => (indexLookup m k e).isSome)).Sorted (· < ·) :=
      (run_sorted_lt hrmem).filter _
    apply sorted_head_min hsor (by rw [hfil]; rfl)
    rw [List.mem_filter]
    exact ⟨hk, hksome⟩
  · intro hmin
    have hrne : r ≠ [] := by
      rw [runsOf_eq_chunkRuns] at hrmem
      exact chunkRuns_ne_nil hrmem
    obtain ⟨x, u, rfl⟩ := List.exists_cons_of_ne_nil hrne
    simp only [List.headI] at hmin ⊢
    rw [List.filter_cons, if_pos (by simpa using hmin)] at hfil
    simp only [List.cons.injEq] at hfil
    exact hfil.1.symm

/-- Witness for the amended C4 at the `c4walk` input. -/
theorem c4_encoder_command_witness :
    (buildCommand (("d/SEQ001").data) (("G2.JPG").data) (("JPG").data)).2
      = pathJoin (("d/SEQ001").data)
          (pyBasename (("d/SEQ001").data) ++ '.' :: MOVIE_EXTENSION) ∧
    (∃ r ∈ runsOf c4index, ∃ k0 : Int,
      pyInt ((pySplitext (("G2.JPG").data)).1.drop 1) = some k0 ∧
      k0 ∈ r ∧ (indexLookup c4index k0 (("JPG").data)).isSome = true ∧
      (∀ k ∈ r, (indexLookup c4index k (("JPG").data)).isSome = true → k0 ≤ k) ∧
      ((indexLookup c4index r.headI (("JPG").data)).isSome = true → k0 = r.headI)) := by
  have hw : NoSlashWalk c4walk := by
    intro root df hdf fi hfi
    simp only [c4walk, List.mem_singleton] at hdf
    subst hdf
    exact (by decide : ∀ x ∈ [("G1.GPR").data, ("G2.JPG").data], '/' ∉ x) fi hfi
  have h := c4_encoder_command c4walk [("r").data] c4index (("d").data) true ⟨[], []⟩
    (("d/SEQ001").data)
    [(("GPR").data, [("G1.GPR").data]), (("JPG").data, [("G2.JPG").data])]
    (("JPG").data) [("G2.JPG").data] (("G2.JPG").data)
    hw rfl (by decide) (by decide) (by decide) rfl
  exact ⟨h.1, h.2.2⟩

end GpSort
